/-
Verification of the retrieval engine of the rag-conversational-agent
repository: a shallow embedding of `chunker.py` (sentence-respecting text
segmentation), `retriever.py` (hybrid BM25 + vector retrieval with
Reciprocal Rank Fusion) and the chunk-citation logic of `app.py`'s upload
handler, together with proofs and refutations of the specified properties.

Conventions of the embedding:
* Python strings are Lean `String`s; most scanning is done on `List Char`
  (`String.data`) so that everything evaluates inside the kernel.
* Machine floats of the source are modelled as exact rationals `ℚ`; the
  only float operations used by the modelled code (addition, division by
  positive constants, comparison, `round(x, 4)`) agree with the rational
  model on the concrete inputs appearing below.
* External collaborators (OpenAI embedder, chromadb vector store, the
  rank_bm25 scoring routine, numpy's argsort) are not part of the
  repository's sources; they enter as explicit function parameters or are
  modelled from the spec, as flagged in the relevant doc comments.
* Fallible calls return `Except`; a Python exception that escapes a
  mutating method is modelled by returning the mutated-so-far state
  together with the error.
-/

import Mathlib

namespace RagCore

/-! ## Python string primitives -/

/-- One word-splitting step of Python's `str.split()` (split on runs of
whitespace, dropping empty pieces); `cur` is the word being accumulated,
in reverse. -/
def pyWordsGo : List Char → List Char → List String
  | [], cur => if cur.isEmpty then [] else [String.mk cur.reverse]
  | c :: rest, cur =>
    if c.isWhitespace then
      if cur.isEmpty then pyWordsGo rest []
      else String.mk cur.reverse :: pyWordsGo rest []
    else pyWordsGo rest (c :: cur)

/-- Python `text.split()`: the whitespace-separated words of a string. -/
def pyWords (s : String) : List String := pyWordsGo s.data []

/-- `TextChunker.count_tokens` (chunker.py lines 32-37), fallback branch
`len(text.split())` taken when the external tiktoken encoder is
unavailable (`self.tokenizer = None`); the spec explicitly allows any
deterministic tokenizer. -/
def count_tokens (s : String) : Nat := (pyWords s).length

/-- Sum of token counts of a list of strings. -/
def sumTokens (l : List String) : Nat := (l.map count_tokens).sum

/-- Python `str.strip()` restricted to whitespace. -/
def pyStrip (s : String) : String :=
  String.mk (((s.data.dropWhile Char.isWhitespace).reverse.dropWhile
    Char.isWhitespace).reverse)

/-- Python `' '.join(parts)`. -/
def joinSpace : List String → String
  | [] => ""
  | [s] => s
  | s :: rest => s ++ " " ++ joinSpace rest

/-- Python `', '.join(parts)`. -/
def joinComma : List String → String
  | [] => ""
  | [s] => s
  | s :: rest => s ++ ", " ++ joinComma rest

/-- Python `s.replace(pat, repl)` (left-to-right, non-overlapping), on
character lists; the fuel argument is an upper bound on the number of
scanning steps (each step consumes at least one character when `pat` is
non-empty). -/
def replaceAllGo (pat repl : List Char) : Nat → List Char → List Char
  | 0, cs => cs
  | _ + 1, [] => []
  | fuel + 1, c :: rest =>
    if pat.isPrefixOf (c :: rest) then
      repl ++ replaceAllGo pat repl fuel ((c :: rest).drop pat.length)
    else c :: replaceAllGo pat repl fuel rest

/-- Python `s.replace(pat, repl)` on strings. -/
def pyReplace (s pat repl : String) : String :=
  String.mk (replaceAllGo pat.data repl.data s.data.length s.data)

/-! ## chunker.py : sentence splitting -/

/-- A word character in the sense of the regex class `\w`. -/
def isWordChar (c : Char) : Bool := c.isAlphanum || c = '_'

/-- The alternatives of the abbreviation-protection regex in
`TextChunker.split_into_sentences` (chunker.py line 44), in the order in
which Python's regex engine tries them. -/
def abbrevList : List String :=
  ["Mr", "Mrs", "Ms", "Dr", "Prof", "Inc", "Ltd", "Corp", "vs", "etc",
   "e.g", "i.e", "Rs", "Cr", "Mn", "Bn"]

/-- Try the abbreviation alternatives in order at the current position:
an alternative matches when it is followed immediately by a period
(pattern `(\b(?:…))\.`); returns the matched abbreviation and the
remaining characters after the consumed period. -/
def findAbbrev (cs : List Char) : Option (String × List Char) :=
  abbrevList.findSome? fun a =>
    if (a.data ++ ['.']).isPrefixOf cs then
      some (a, cs.drop (a.data.length + 1))
    else none

/-- Scanner for `re.sub(r'(\b(?:Mr|Mrs|…))\.', r'\1<PERIOD>', text)`:
`atB` records whether the current position is at a `\b` word boundary
(start of string, or previous character not a word character — the
alternatives all begin with word characters).  Fuel bounds the number of
steps; each step consumes at least one character. -/
def protectAbbrevGo : Nat → Bool → List Char → List Char
  | 0, _, cs => cs
  | _ + 1, _, [] => []
  | fuel + 1, atB, c :: rest =>
    if atB then
      match findAbbrev (c :: rest) with
      | some (a, rest') =>
        a.data ++ "<PERIOD>".data ++ protectAbbrevGo fuel true rest'
      | none => c :: protectAbbrevGo fuel (!isWordChar c) rest
    else c :: protectAbbrevGo fuel (!isWordChar c) rest

/-- Abbreviation protection (chunker.py line 44). -/
def protectAbbrev (cs : List Char) : List Char :=
  protectAbbrevGo cs.length true cs

/-- Scanner for `re.sub(r'(\d+)\.(\d+)', r'\1<DECIMAL>\2', text)`
(chunker.py line 47).  `pending` is the digit run read so far (reversed);
`afterDec` is true while consuming the digit run just after a protected
decimal point (those digits are already part of the match and cannot
start a new one). -/
def protectDecimalGo : List Char → List Char → Bool → List Char
  | [], pending, _ => pending.reverse
  | c :: rest, pending, afterDec =>
    if afterDec then
      if c.isDigit then c :: protectDecimalGo rest [] true
      else if c.isDigit = false ∧ c ≠ '.' then
        c :: protectDecimalGo rest [] false
      else if c = '.' then
        '.' :: protectDecimalGo rest [] false
      else c :: protectDecimalGo rest [] false
    else
      if c.isDigit then protectDecimalGo rest (c :: pending) false
      else if c = '.' ∧ pending ≠ [] ∧ (rest.head?.map Char.isDigit).getD false then
        pending.reverse ++ "<DECIMAL>".data ++ protectDecimalGo rest [] true
      else pending.reverse ++ c :: protectDecimalGo rest [] false

/-- Decimal protection (chunker.py line 47). -/
def protectDecimal (cs : List Char) : List Char :=
  protectDecimalGo cs [] false

/-- Scanner for `re.split(r'(?<=[.!?])\s+', text)` (chunker.py line 50):
split at each maximal whitespace run that immediately follows `.`, `!` or
`?`, consuming the run.  `cur` is the current piece (reversed); `skip` is
true while consuming the whitespace run after a split. -/
def sentenceSplitGo : List Char → List Char → Bool → List (List Char)
  | [], cur, _ => [cur.reverse]
  | c :: rest, cur, skip =>
    if skip ∧ c.isWhitespace then sentenceSplitGo rest cur true
    else if c.isWhitespace ∧
        (cur.head? = some '.' ∨ cur.head? = some '!' ∨ cur.head? = some '?') then
      cur.reverse :: sentenceSplitGo rest [] true
    else sentenceSplitGo rest (c :: cur) false

/-- `TextChunker.split_into_sentences` (chunker.py lines 39-55): protect
abbreviation periods and decimal points, split on sentence boundaries,
restore the protected periods, strip the pieces and drop empty ones. -/
def split_into_sentences (text : String) : List String :=
  let protected1 := protectAbbrev text.data
  let protected2 := protectDecimal protected1
  let parts := (sentenceSplitGo protected2 [] false).map String.mk
  let restored := parts.map fun s =>
    pyReplace (pyReplace s "<PERIOD>" ".") "<DECIMAL>" "."
  (restored.map pyStrip).filter (· ≠ "")

/-! ## chunker.py : chunking -/

/-- The overlap-collection loop of `TextChunker._chunk_text` (chunker.py
lines 122-131): walk the just-closed chunk's sentences from the end,
keeping them while the accumulated token count stays within the overlap
budget; returns the kept sentences in original order with their total
token count.  `acc`/`size` are the sentences kept so far and their size. -/
def overlapSeedGo (budget : Nat) : List String → Nat → List String →
    List String × Nat
  | [], size, acc => (acc, size)
  | s :: rest, size, acc =>
    let ss := count_tokens s
    if size + ss ≤ budget then overlapSeedGo budget rest (size + ss) (s :: acc)
    else (acc, size)

/-- The overlap seed carried from a closed chunk to the next one
(chunker.py lines 122-134): the maximal trailing run of the chunk's
sentences whose token count fits in `chunk_overlap`. -/
def overlapSeed (budget : Nat) (currentChunk : List String) :
    List String × Nat :=
  overlapSeedGo budget currentChunk.reverse 0 []

/-- The clause-splitting step `re.split(r'[;,]\s*', sentence)` of
`TextChunker._split_long_sentence` (chunker.py line 150): split at each
`;` or `,`, also consuming the following whitespace run. -/
def clauseSplitGo : List Char → List Char → List (List Char)
  | [], cur => [cur.reverse]
  | c :: rest, cur =>
    if c = ';' ∨ c = ',' then
      cur.reverse :: clauseSplitGo (rest.dropWhile Char.isWhitespace) []
    else clauseSplitGo rest (c :: cur)
termination_by cs _ => cs.length
decreasing_by
  all_goals simp_wf
  all_goals first
    | omega
    | exact Nat.lt_succ_of_le ((rest.dropWhile_sublist Char.isWhitespace).length_le)

/-- The packing loop of `TextChunker._split_long_sentence` (chunker.py
lines 152-169): greedily pack clause parts, starting a fresh group when
the next part would overflow `chunk_size`, and join each group with
`', '`. -/
def splitLongGo (chunk_size : Nat) : List String → List String → Nat →
    List String
  | [], current, _ => if current.isEmpty then [] else [joinComma current]
  | part :: parts, current, size =>
    let ps := count_tokens part
    if chunk_size < size + ps then
      (if current.isEmpty then [] else [joinComma current]) ++
        splitLongGo chunk_size parts [part] ps
    else splitLongGo chunk_size parts (current ++ [part]) (size + ps)

/-- `TextChunker._split_long_sentence` (chunker.py lines 145-171). -/
def split_long_sentence (chunk_size : Nat) (sentence : String) :
    List String :=
  splitLongGo chunk_size ((clauseSplitGo sentence.data []).map String.mk) [] 0

/-- The sentence-packing loop of `TextChunker._chunk_text` (chunker.py
lines 96-143).  `current`/`curSize` mirror `current_chunk`/`current_size`.
A sentence longer than `chunk_size` flushes the current chunk and is
handed to the clause-splitting fallback; otherwise, when it would
overflow a non-empty current chunk, the chunk is emitted and the next one
is seeded with the overlap sentences; in every case the sentence is then
appended to the current chunk. -/
def chunkGo (chunk_size chunk_overlap : Nat) : List String → List String →
    Nat → List String
  | [], current, _ => if current.isEmpty then [] else [joinSpace current]
  | s :: rest, current, curSize =>
    let ss := count_tokens s
    if chunk_size < ss then
      (if current.isEmpty then [] else [joinSpace current]) ++
        split_long_sentence chunk_size s ++
        chunkGo chunk_size chunk_overlap rest [] 0
    else if chunk_size < curSize + ss then
      if current.isEmpty then
        chunkGo chunk_size chunk_overlap rest [s] (curSize + ss)
      else
        let seed := overlapSeed chunk_overlap current
        joinSpace current ::
          chunkGo chunk_size chunk_overlap rest (seed.1 ++ [s]) (seed.2 + ss)
    else chunkGo chunk_size chunk_overlap rest (current ++ [s]) (curSize + ss)

/-- `TextChunker._chunk_text` (chunker.py lines 87-143). -/
def chunk_text (chunk_size chunk_overlap : Nat) (text : String) :
    List String :=
  let sentences := split_into_sentences text
  if sentences.isEmpty then
    if pyStrip text = "" then [] else [text]
  else chunkGo chunk_size chunk_overlap sentences [] 0

/-- A chunk record as produced by `TextChunker.chunk_pages` and consumed
by the retriever: the dict
`{chunk_id, page_num, text, token_count, citation}`. -/
structure Chunk where
  chunk_id : Nat
  page_num : Nat
  text : String
  token_count : Nat
  citation : String
deriving DecidableEq, Repr

/-- A page record `{page_num, text}` as produced by the external PDF
reader. -/
structure Page where
  page_num : Nat
  text : String
deriving DecidableEq, Repr

/-- The single-document citation label built at chunker.py line 81:
`f"[p{page_num}:c{chunk_id}]"`. -/
def mkCitation (page_num chunk_id : Nat) : String :=
  "[p" ++ toString page_num ++ ":c" ++ toString chunk_id ++ "]"

/-- Emission loop body of `TextChunker.chunk_pages` (chunker.py lines
74-83): the chunk texts of a page that pass the minimum-length filter
become chunk records with consecutive ids starting at `cid`
(`chunk_id += 1` per emitted chunk). -/
def emitChunks (page_num cid : Nat) : List String → List Chunk
  | [] => []
  | t :: ts =>
    { chunk_id := cid
      page_num := page_num
      text := pyStrip t
      token_count := count_tokens t
      citation := mkCitation page_num cid } :: emitChunks page_num (cid + 1) ts

/-- `TextChunker.chunk_pages` (chunker.py lines 57-85), with the running
chunk id threaded through the pages: a page is skipped when its text is
empty or its stripped length is below `min_chunk_size` (a character
count); each surviving chunk text of at least `min_chunk_size` stripped
characters is emitted with the next chunk id. -/
def chunkPagesGo (chunk_size chunk_overlap min_chunk_size : Nat) :
    List Page → Nat → List Chunk
  | [], _ => []
  | p :: rest, cid =>
    if p.text = "" ∨ (pyStrip p.text).length < min_chunk_size then
      chunkPagesGo chunk_size chunk_overlap min_chunk_size rest cid
    else
      let kept := (chunk_text chunk_size chunk_overlap p.text).filter
        fun t => min_chunk_size ≤ (pyStrip t).length
      emitChunks p.page_num cid kept ++
        chunkPagesGo chunk_size chunk_overlap min_chunk_size rest
          (cid + kept.length)

/-- `TextChunker.chunk_pages` (chunker.py lines 57-85). -/
def chunk_pages (chunk_size chunk_overlap min_chunk_size : Nat)
    (pages : List Page) : List Chunk :=
  chunkPagesGo chunk_size chunk_overlap min_chunk_size pages 0

/-- `create_chunks` (chunker.py lines 174-183): a `TextChunker` with the
default minimum chunk size 50. -/
def create_chunks (pages : List Page) (chunk_size chunk_overlap : Nat) :
    List Chunk :=
  chunk_pages chunk_size chunk_overlap 50 pages

/-! ## retriever.py : state and external collaborators -/

/-- Modelled from the spec: `EmbeddingServiceError`, the failure modes of
the external embedder (§6: rate limit, auth, network). -/
inductive EmbErr where
  | rateLimit : EmbErr
  | auth : EmbErr
  | network : EmbErr
deriving DecidableEq, Repr

/-- The exceptions a retriever search method can raise:
`attributeError` is Python's `AttributeError`, raised by
`search_vector`'s very first line `if not self.collection:` when the
`self.collection` attribute was never assigned (the constructor does not
initialize it); `embed e` wraps a failure of the external embedding
service. -/
inductive PyErr where
  | attributeError : PyErr
  | embed : EmbErr → PyErr
deriving DecidableEq, Repr

/-- An item stored in the chromadb collection: the chunk's document text
and metadata (`page_num`, `chunk_id`, `citation`, `token_count`, all
losslessly represented by the `Chunk` record) together with its embedding
vector. -/
structure StoredItem where
  chunk : Chunk
  embedding : List ℚ
deriving DecidableEq, Repr

/-- The mutable state of a `HybridRetriever` (retriever.py lines 20-42):
`collection` is the persisted chromadb collection under the configured
collection name, which is also the `self.collection` attribute — `none`
when no such collection was ever committed and the attribute was never
assigned (the constructor does not initialize `self.collection`, so an
attribute access in that state raises `AttributeError`; once assigned,
the chromadb collection object is always truthy, so the guard
`if not self.collection` never fires).  The two readings coincide in
every state a single process reaches; no search theorem below is stated
on the one state where they diverge (a fresh process over a pre-existing
store before its first `index_chunks` call).  `chunks`, `bm25` and
`tokenized_corpus` are the in-memory corpus and lexical structures.
Modelled from the spec: the external rank_bm25 `BM25Okapi` object is
represented by the tokenized corpus it was built from. -/
structure RetrieverState where
  collection : Option (List StoredItem)
  chunks : List Chunk
  bm25 : Option (List (List String))
  tokenized_corpus : List (List String)
deriving DecidableEq, Repr

/-- `HybridRetriever.__init__` (retriever.py lines 20-42): no collection,
no corpus, no BM25 index. -/
def initState : RetrieverState :=
  { collection := none, chunks := [], bm25 := none, tokenized_corpus := [] }

/-- `HybridRetriever.tokenize` (retriever.py lines 63-70):
`re.findall(r'\b\w+\b', text.lower())` — the maximal runs of word
characters of the lowercased text. -/
def tokenize (text : String) : List String :=
  (((String.mk (text.data.map Char.toLower)).data.splitOnP
      fun c => !isWordChar c).map String.mk).filter (· ≠ "")

/-- The slicing loop `for i in range(0, len(texts), batch_size)` of
`HybridRetriever.get_embeddings`: cut a list into consecutive slices of
`n` elements.  Fuel bounds the number of slices; each step consumes at
least one element when `n ≥ 1`. -/
def toBatchesGo (n : Nat) : Nat → List α → List (List α)
  | _, [] => []
  | 0, l => [l]
  | fuel + 1, l => l.take n :: toBatchesGo n fuel (l.drop n)

/-- The batches `texts[i:i+n]` of the embedding request loop. -/
def toBatches (n : Nat) (l : List α) : List (List α) :=
  toBatchesGo n l.length l

/-- `HybridRetriever.get_embeddings` (retriever.py lines 44-61): the
batching loop over the external embedder, batch size 100; any failing
batch aborts the whole call. -/
def get_embeddings (embed : List String → Except EmbErr (List (List ℚ)))
    (texts : List String) : Except EmbErr (List (List ℚ)) :=
  (toBatches 100 texts).foldlM
    (fun acc batch => do
      let bs ← embed batch
      pure (acc ++ bs))
    []

/-- One insertion step of Python's stable sort: the new element `x` goes
after every already-placed element `y` with `stays y x = true`. -/
def insertStable (stays : α → α → Bool) (x : α) : List α → List α
  | [] => [x]
  | y :: ys => if stays y x then y :: insertStable stays x ys else x :: y :: ys

/-- Python's stable `sorted`/`list.sort` for the total preorders used in
the source: ascending with `stays y x := key y ≤ key x`, descending with
`stays y x := key x ≤ key y` (ties keep first-come order in both). -/
def pyListSort (stays : α → α → Bool) (l : List α) : List α :=
  l.foldl (fun acc x => insertStable stays x acc) []

/-! ## retriever.py : indexing lifecycle -/

/-- `HybridRetriever._build_bm25_index` (retriever.py lines 135-141):
tokenize all texts and build the BM25 object from the tokenized corpus. -/
def build_bm25_index (st : RetrieverState) (texts : List String) :
    RetrieverState :=
  let corpus := texts.map tokenize
  { st with tokenized_corpus := corpus, bm25 := some corpus }

/-- `HybridRetriever._rebuild_bm25_from_collection` (retriever.py lines
143-167): read all documents and metadata back from the collection; when
there are any, reconstruct the chunk records (the stored metadata holds
every field), sort them by `chunk_id` (Python's stable sort) and rebuild
the BM25 index from their texts.  An empty collection leaves the state
unchanged. -/
def rebuild_bm25_from_collection (st : RetrieverState) : RetrieverState :=
  match st.collection with
  | none => st
  | some items =>
    if items.isEmpty then st
    else
      let cs := pyListSort (fun a b => a.chunk_id ≤ b.chunk_id)
        (items.map (·.chunk))
      build_bm25_index { st with chunks := cs } (cs.map (·.text))

/-- `HybridRetriever.index_chunks` (retriever.py lines 72-133).  The
in-memory corpus is overwritten with the argument first (line 76).  With
an existing collection and `force_reindex = false`, the existing
collection is loaded and the BM25 structures are rebuilt from it.
Otherwise the collection under the configured name is deleted (if
present) and a fresh empty one is created *before* the embedder is
called; an embedder failure therefore escapes with the new empty
collection already committed.  On success all chunks and embeddings are
added and the BM25 index is built. -/
def index_chunks (embed : List String → Except EmbErr (List (List ℚ)))
    (st : RetrieverState) (chunks : List Chunk) (force_reindex : Bool) :
    RetrieverState × Option EmbErr :=
  let st1 := { st with chunks := chunks }
  if st1.collection.isSome && !force_reindex then
    (rebuild_bm25_from_collection st1, none)
  else
    let st2 := { st1 with collection := some [] }
    let texts := chunks.map (·.text)
    match get_embeddings embed texts with
    | .error e => (st2, some e)
    | .ok embs =>
      let items := (chunks.zip embs).map fun p => StoredItem.mk p.1 p.2
      (build_bm25_index { st2 with collection := some items } texts, none)

/-! ## retriever.py : search -/

/-- The result dict built by both search methods (retriever.py lines
200-206 and 237-243): text, page number, chunk id and citation. -/
structure RDoc where
  text : String
  page_num : Nat
  chunk_id : Nat
  citation : String
deriving DecidableEq, Repr

/-- Projection of a chunk record to a search-result dict. -/
def toRDoc (c : Chunk) : RDoc :=
  { text := c.text, page_num := c.page_num, chunk_id := c.chunk_id,
    citation := c.citation }

/-- `HybridRetriever.search_vector` (retriever.py lines 169-210).  `nn`
is the external chromadb `collection.query` capability: given the stored
items, a query embedding and `n_results`, it returns at most `n_results`
stored items with their cosine distances, ordered by ascending distance
(spec §6); the adapter converts each distance to the similarity
`1 - distance`.  `embed` is the external embedder used for the query
text.  When the `self.collection` attribute was never assigned, the
attribute access in the guard `if not self.collection` (line 177) raises
`AttributeError` before anything else runs; when it is assigned the
collection object is truthy, so the guard never returns `[]` and the
query proceeds. -/
def search_vector (embed : List String → Except EmbErr (List (List ℚ)))
    (nn : List StoredItem → List ℚ → Nat → List (StoredItem × ℚ))
    (st : RetrieverState) (query : String) (top_k : Nat) :
    Except PyErr (List (RDoc × ℚ)) :=
  match st.collection with
  | none => .error .attributeError
  | some items =>
    match get_embeddings embed [query] with
    | .error e => .error (.embed e)
    | .ok es =>
      match es.head? with
      | none => .ok []
      | some qe =>
        .ok ((nn items qe top_k).map fun p => (toRDoc p.1.chunk, 1 - p.2))

/-- Indices `0, …, n-1` sorted by descending score, modelling
`np.argsort(scores)[::-1]` (retriever.py line 230); numpy's default sort
is not stable, so the order among tied scores is
implementation-defined — no theorem below depends on it. -/
def argsortDesc (scores : List ℚ) : List Nat :=
  (pyListSort (fun i j => scores.getD i 0 ≤ scores.getD j 0)
    (List.range scores.length)).reverse

/-- `HybridRetriever.search_bm25` (retriever.py lines 212-247).
`getScores` is the external rank_bm25 scoring capability
(`self.bm25.get_scores`): per-document scores of the tokenized query
against the tokenized corpus the index was built from.  Without a BM25
index or with an empty corpus the method returns an empty list; otherwise
the `top_k` highest-scoring indices are looked up in `self.chunks`,
keeping only strictly positive scores.  Caveat: when the score array is
longer than `self.chunks` (a stale state reachable only after a failed
re-index left the BM25 object behind), Python's `self.chunks[idx]` raises
`IndexError` where this model's `get?` silently drops the entry; no
theorem below visits such a state. -/
def search_bm25 (getScores : List (List String) → List String → List ℚ)
    (st : RetrieverState) (query : String) (top_k : Nat) :
    List (RDoc × ℚ) :=
  match st.bm25 with
  | none => []
  | some corpus =>
    if st.chunks.isEmpty then []
    else
      let scores := getScores corpus (tokenize query)
      ((argsortDesc scores).take top_k).filterMap fun idx =>
        match scores.get? idx, st.chunks.get? idx with
        | some sc, some c => if 0 < sc then some (toRDoc c, sc) else none
        | _, _ => none

/-! ## retriever.py : Reciprocal Rank Fusion -/

/-- A value of the `rrf_scores` dict in `HybridRetriever.search_hybrid`
(retriever.py lines 268-294): the chunk dict together with its raw
vector score, raw BM25 score and accumulated RRF score. -/
structure FEntry where
  chunk : RDoc
  vector_score : ℚ
  bm25_score : ℚ
  rrf_score : ℚ
deriving DecidableEq, Repr

/-- The `rrf_scores` Python dict: an association list keyed by chunk id,
in insertion order. -/
abbrev FMap := List (Nat × FEntry)

/-- Python `key in dict`. -/
def fmContains (m : FMap) (k : Nat) : Bool := m.any fun p => p.1 = k

/-- Python `dict[key] = value` for a fresh key: appended in insertion
order. -/
def fmAppend (m : FMap) (k : Nat) (e : FEntry) : FMap := m ++ [(k, e)]

/-- In-place update of the entry at a key. -/
def fmModify (m : FMap) (k : Nat) (f : FEntry → FEntry) : FMap :=
  m.map fun p => if p.1 = k then (p.1, f p.2) else p

/-- Python `dict.get`. -/
def fmLookup (m : FMap) (k : Nat) : Option FEntry :=
  (m.find? fun p => p.1 = k).map (·.2)

/-- The vector loop of `search_hybrid` (retriever.py lines 270-281): for
each vector result in rank order, create the entry on first sight (raw
vector score, BM25 score 0, RRF score 0), then add
`vector_weight / (k + rank + 1)` to its RRF score and set its vector
score. -/
def procVector (vw : ℚ) : List (RDoc × ℚ) → Nat → FMap → FMap
  | [], _, m => m
  | (c, s) :: rest, rank, m =>
    let m1 := if fmContains m c.chunk_id then m
      else fmAppend m c.chunk_id ⟨c, s, 0, 0⟩
    let m2 := fmModify m1 c.chunk_id fun e =>
      { e with rrf_score := e.rrf_score + vw / (60 + rank + 1),
               vector_score := s }
    procVector vw rest (rank + 1) m2

/-- The BM25 loop of `search_hybrid` (retriever.py lines 283-294),
symmetric to the vector loop: entries created on first sight carry vector
score 0 and the raw BM25 score. -/
def procBM25 (bw : ℚ) : List (RDoc × ℚ) → Nat → FMap → FMap
  | [], _, m => m
  | (c, s) :: rest, rank, m =>
    let m1 := if fmContains m c.chunk_id then m
      else fmAppend m c.chunk_id ⟨c, 0, s, 0⟩
    let m2 := fmModify m1 c.chunk_id fun e =>
      { e with rrf_score := e.rrf_score + bw / (60 + rank + 1),
               bm25_score := s }
    procBM25 bw rest (rank + 1) m2

/-- The `rrf_scores` dict after both loops of `search_hybrid`
(retriever.py lines 268-294): the vector results are processed first,
then the BM25 results; the RRF constant is `k = 60` (line 265). -/
def rrfMap (vres bres : List (RDoc × ℚ)) (vw bw : ℚ) : FMap :=
  procBM25 bw bres 0 (procVector vw vres 0 [])

/-- Round a rational to the nearest integer, ties to even — the rounding
Python's builtin `round` uses (here on exact rationals rather than binary
floats). -/
def roundHalfEven (x : ℚ) : ℤ :=
  let f := x.floor
  let r := x - f
  if r < 1/2 then f
  else if 1/2 < r then f + 1
  else if f % 2 = 0 then f else f + 1

/-- Python `round(x, 4)` on the exact rational model (used only for
display formatting of the scores). -/
def round4 (x : ℚ) : ℚ := (roundHalfEven (x * 10000) : ℚ) / 10000

/-- A formatted entry of the final result list of `search_hybrid`
(retriever.py lines 304-314). -/
structure FusedResult where
  text : String
  page_num : Nat
  chunk_id : Nat
  citation : String
  vector_score : ℚ
  bm25_score : ℚ
  combined_score : ℚ
deriving DecidableEq, Repr

/-- Formatting of one fused entry (retriever.py lines 305-314): scores
rounded to four decimal places. -/
def formatEntry (e : FEntry) : FusedResult :=
  { text := e.chunk.text, page_num := e.chunk.page_num,
    chunk_id := e.chunk.chunk_id, citation := e.chunk.citation,
    vector_score := round4 e.vector_score,
    bm25_score := round4 e.bm25_score,
    combined_score := round4 e.rrf_score }

/-- The fusion stage of `HybridRetriever.search_hybrid` (retriever.py
lines 264-316): accumulate RRF scores over both rankings, sort the dict
values by descending RRF score (Python's stable sort, so ties keep
insertion order of first appearance), truncate to `top_k` and format. -/
def fuseRRF (vres bres : List (RDoc × ℚ)) (top_k : Nat) (vw bw : ℚ) :
    List FusedResult :=
  let m := rrfMap vres bres vw bw
  let sorted := pyListSort (fun a b => b.rrf_score ≤ a.rrf_score)
    (m.map (·.2))
  ((sorted.take top_k).map formatEntry)

/-- `HybridRetriever.search_hybrid` (retriever.py lines 249-316): fetch
`2 * top_k` results from each sub-ranking (the vector search first — an
exception it raises, `AttributeError` on the unset collection attribute
or an embedder failure, aborts the whole query), then fuse.  The
source's default weights are `vector_weight = 0.6`,
`bm25_weight = 0.4`. -/
def search_hybrid (embed : List String → Except EmbErr (List (List ℚ)))
    (getScores : List (List String) → List String → List ℚ)
    (nn : List StoredItem → List ℚ → Nat → List (StoredItem × ℚ))
    (st : RetrieverState) (query : String) (top_k : Nat) (vw bw : ℚ) :
    Except PyErr (List FusedResult) := do
  let vres ← search_vector embed nn st query (top_k * 2)
  let bres := search_bm25 getScores st query (top_k * 2)
  pure (fuseRRF vres bres top_k vw bw)

/-! ## app.py : the upload handler's citation logic -/

/-- The multi-file source-name truncation of `app.upload` (app.py line
164): names longer than 20 characters are cut to 20 and get a trailing
ellipsis. -/
def shortName (filename : String) : String :=
  if 20 < filename.length then String.mk (filename.data.take 20) ++ "..."
  else filename

/-- The multi-file citation label of `app.upload` (app.py line 167):
`f"[{short_name}:p{page_num}:c{chunk_id}]"`. -/
def mkMultiCitation (filename : String) (page_num chunk_id : Nat) : String :=
  "[" ++ shortName filename ++ ":p" ++ toString page_num ++ ":c" ++
    toString chunk_id ++ "]"

/-- The per-file chunking stage of `app.upload` (app.py lines 147-171):
each file's pages are chunked with `chunk_size=500, chunk_overlap=100`
(and the chunker's default minimum size), and when more than one file is
uploaded every chunk's citation is rewritten to the multi-file form using
the chunk's current (per-file) chunk id. -/
def uploadFileChunks (numFiles : Nat) (file : String × List Page) :
    List Chunk :=
  let fchunks := create_chunks file.2 500 100
  if 1 < numFiles then
    fchunks.map fun c =>
      { c with citation := mkMultiCitation file.1 c.page_num c.chunk_id }
  else fchunks

/-- The id-reindexing loop of `app.upload` (app.py lines 174-175):
`for i, chunk in enumerate(all_chunks): chunk['chunk_id'] = i`. -/
def reindexIds (i : Nat) : List Chunk → List Chunk
  | [] => []
  | c :: cs => { c with chunk_id := i } :: reindexIds (i + 1) cs

/-- The chunk-assembly stage of `app.upload` (app.py lines 144-180):
chunk each file, concatenate, then reindex `chunk_id` to the global
position — after the citations have already been written. -/
def uploadChunks (files : List (String × List Page)) : List Chunk :=
  reindexIds 0 ((files.map (uploadFileChunks files.length)).flatten)

/-! ## Observers and concrete data used by the verification -/

/-- The raw score a ranking assigns to a chunk id (0 when absent — the
default the fusion loops report for a missing ranking). -/
def rankScore (r : List (RDoc × ℚ)) (x : Nat) : ℚ :=
  ((r.find? fun p => p.1.chunk_id = x).map (·.2)).getD 0

/-- The RRF contribution of one ranking to a chunk id when rank positions
are counted from `r0`: `w / (60 + rank + 1)` at the id's first position,
0 when the id is absent. -/
def rankContribOff (w : ℚ) (r : List (RDoc × ℚ)) (x : Nat) (r0 : Nat) : ℚ :=
  match r.findIdx? (fun p => p.1.chunk_id = x) r0 with
  | some i => w / (60 + (i : ℚ) + 1)
  | none => 0

/-- The RRF contribution of one ranking to a chunk id (ranks from 0). -/
def rankContrib (w : ℚ) (r : List (RDoc × ℚ)) (x : Nat) : ℚ :=
  rankContribOff w r x 0

/-- Chunk dicts `A`, `B`, `C`, `D` for the fusion example of the spec
(§8): distinct chunk ids 0-3. -/
def docA : RDoc := ⟨"ta", 1, 0, "[p1:c0]"⟩

/-- Chunk dict `B` of the fusion example. -/
def docB : RDoc := ⟨"tb", 1, 1, "[p1:c1]"⟩

/-- Chunk dict `C` of the fusion example. -/
def docC : RDoc := ⟨"tc", 2, 2, "[p2:c2]"⟩

/-- Chunk dict `D` of the fusion example. -/
def docD : RDoc := ⟨"td", 2, 3, "[p2:c3]"⟩

/-- The lexical (BM25) ranking `[A, B, C]` of the spec's fusion example,
with descending positive scores. -/
def lexRank : List (RDoc × ℚ) := [(docA, 3), (docB, 2), (docC, 1)]

/-- The vector ranking `[B, A, D]` of the spec's fusion example. -/
def vecRank : List (RDoc × ℚ) := [(docB, 9/10), (docA, 8/10), (docD, 7/10)]

/-- The fused-dict entry of chunk `A` in the spec's fusion example:
vector rank 1, lexical rank 0, RRF score `0.5/62 + 0.5/61`. -/
def entryA : FEntry := ⟨docA, 8/10, 3, 123/7564⟩

/-- The fused-dict entry of chunk `B`: vector rank 0, lexical rank 1. -/
def entryB : FEntry := ⟨docB, 9/10, 2, 123/7564⟩

/-- The fused-dict entry of chunk `C`: lexical rank 2 only. -/
def entryC : FEntry := ⟨docC, 0, 1, 1/126⟩

/-- The fused-dict entry of chunk `D`: vector rank 2 only. -/
def entryD : FEntry := ⟨docD, 7/10, 0, 1/126⟩

/-- A healthy external embedder: every text maps to the one-dimensional
vector `[1]`. -/
def embedConst : List String → Except EmbErr (List (List ℚ)) :=
  fun ts => .ok (ts.map fun _ => [(1 : ℚ)])

/-- A failing external embedder (rate-limited), as in the spec's
simulated-embedder-failure scenario. -/
def embedDown : List String → Except EmbErr (List (List ℚ)) :=
  fun _ => .error .rateLimit

/-- A concrete external nearest-neighbor capability: with all stored
vectors equal to the query vector, every stored item is returned (up to
`n_results`) at cosine distance 0, in insertion order.  On an empty
collection it returns nothing. -/
def nnAll : List StoredItem → List ℚ → Nat → List (StoredItem × ℚ) :=
  fun items _ n => (items.take n).map fun it => (it, 0)

/-- A concrete external BM25 scoring capability assigning score 0 to
every document (no query term matches). -/
def zeroScores : List (List String) → List String → List ℚ :=
  fun corpus _ => corpus.map fun _ => 0

/-- A chunk record present in the retriever's prior committed index in
the force-reindex failure scenario. -/
def chunkAlpha : Chunk := ⟨0, 1, "alpha beta", 2, "[p1:c0]"⟩

/-- The replacement chunk record offered in the failing re-index
attempt. -/
def chunkGamma : Chunk := ⟨0, 1, "gamma delta", 2, "[p1:c0]"⟩

/-- The retriever state after successfully force-indexing
`[chunkAlpha]` from scratch. -/
def builtState : RetrieverState :=
  (index_chunks embedConst initState [chunkAlpha] true).1

/-- A retriever state whose persisted collection exists under the
configured name but holds zero items. -/
def emptyStoreState : RetrieverState :=
  { collection := some [], chunks := [], bm25 := none, tokenized_corpus := [] }

/-- The chunk records reconstructed from a persisted collection's items
by `_rebuild_bm25_from_collection`: the stored chunks, stably sorted by
`chunk_id`. -/
def rebuiltChunks (items : List StoredItem) : List Chunk :=
  pyListSort (fun a b => a.chunk_id ≤ b.chunk_id) (items.map (·.chunk))

/-- The tokenized BM25 corpus rebuilt from a persisted collection's
items. -/
def rebuiltCorpus (items : List StoredItem) : List (List String) :=
  ((rebuiltChunks items).map (·.text)).map tokenize

/-- A retriever state holding a persisted non-empty collection (one
stored chunk) with the in-memory lexical structures not yet rebuilt —
the `Stale` state after a process restart. -/
def storeSt : RetrieverState :=
  { collection := some [⟨chunkAlpha, [1]⟩], chunks := [], bm25 := none,
    tokenized_corpus := [] }

/-- A one-page document of one 69-character sentence (13 tokens), long
enough to pass the default 50-character minimum chunk size. -/
def demoPage : Page :=
  ⟨1, "The quick brown fox jumps over the lazy dog near the riverbank today."⟩

/-- A concrete two-file upload: two single-page documents, each yielding
one chunk. -/
def upFiles : List (String × List Page) :=
  [("a.pdf", [demoPage]), ("b.pdf", [demoPage])]

/-! ## Token-count arithmetic -/

theorem sumTokens_cons (s : String) (l : List String) :
    sumTokens (s :: l) = count_tokens s + sumTokens l := by
  simp [sumTokens]

theorem sumTokens_append (a b : List String) :
    sumTokens (a ++ b) = sumTokens a + sumTokens b := by
  simp [sumTokens]

/-- Splitting on whitespace distributes over a whitespace separator: the
words of `xs ++ ' ' :: ys` are the words of `xs` (closing any pending
word) followed by the words of `ys`. -/
theorem pyWordsGo_ws_append (ys : List Char) : ∀ (xs cur : List Char),
    (pyWordsGo (xs ++ ' ' :: ys) cur).length =
      (pyWordsGo xs cur).length + (pyWordsGo ys []).length := by
  intro xs
  induction xs with
  | nil =>
    intro cur
    by_cases hc : cur.isEmpty
    · simp [pyWordsGo, hc]
    · simp [pyWordsGo, hc]
      omega
  | cons c xs ih =>
    intro cur
    by_cases hw : c.isWhitespace
    · by_cases hc : cur.isEmpty
      · simp [pyWordsGo, hw, hc, ih]
      · simp [pyWordsGo, hw, hc, ih]
        omega
    · simp [pyWordsGo, hw, ih]

theorem count_tokens_space_append (a b : String) :
    count_tokens (a ++ " " ++ b) = count_tokens a + count_tokens b := by
  have h : (a ++ " " ++ b).data = a.data ++ ' ' :: b.data := by
    simp [String.data_append]
  unfold count_tokens pyWords
  rw [h]
  exact pyWordsGo_ws_append b.data a.data []

/-- `' '.join` is token-count preserving: the fallback tokenizer counts a
space-joined list of strings as the sum of the pieces' counts. -/
theorem count_tokens_joinSpace (l : List String) :
    count_tokens (joinSpace l) = sumTokens l := by
  induction l with
  | nil => rfl
  | cons s rest ih =>
    cases rest with
    | nil => simp [joinSpace, sumTokens]
    | cons t ts =>
      rw [show joinSpace (s :: t :: ts) = s ++ " " ++ joinSpace (t :: ts)
        from rfl, count_tokens_space_append, ih]
      simp [sumTokens_cons]

/-! ## Overlap-seed lemmas -/

theorem overlapSeedGo_size (budget : Nat) : ∀ (l : List String) (size : Nat)
    (acc : List String), size = sumTokens acc →
    (overlapSeedGo budget l size acc).2 =
      sumTokens (overlapSeedGo budget l size acc).1 := by
  intro l
  induction l with
  | nil => intro size acc h; simpa [overlapSeedGo] using h
  | cons s rest ih =>
    intro size acc h
    by_cases hc : size + count_tokens s ≤ budget
    · simp only [overlapSeedGo, hc, if_pos]
      exact ih _ _ (by rw [sumTokens_cons]; omega)
    · simpa [overlapSeedGo, hc] using h

theorem overlapSeedGo_le (budget : Nat) : ∀ (l : List String) (size : Nat)
    (acc : List String), size ≤ budget →
    (overlapSeedGo budget l size acc).2 ≤ budget := by
  intro l
  induction l with
  | nil => intro size acc h; simpa [overlapSeedGo] using h
  | cons s rest ih =>
    intro size acc h
    by_cases hc : size + count_tokens s ≤ budget
    · simp only [overlapSeedGo, hc, if_pos]
      exact ih _ _ hc
    · simpa [overlapSeedGo, hc] using h

theorem overlapSeedGo_shape (budget : Nat) : ∀ (l : List String) (size : Nat)
    (acc : List String), ∃ p, p <+: l ∧
      (overlapSeedGo budget l size acc).1 = p.reverse ++ acc := by
  intro l
  induction l with
  | nil => intro size acc; exact ⟨[], List.nil_prefix, by simp [overlapSeedGo]⟩
  | cons s rest ih =>
    intro size acc
    by_cases hc : size + count_tokens s ≤ budget
    · obtain ⟨p, hp, he⟩ := ih (size + count_tokens s) (s :: acc)
      obtain ⟨tl, htl⟩ := hp
      refine ⟨s :: p, ⟨tl, by simp [htl]⟩, ?_⟩
      simp only [overlapSeedGo, hc, if_pos, he, List.reverse_cons,
        List.append_assoc, List.singleton_append]
    · exact ⟨[], List.nil_prefix, by simp [overlapSeedGo, hc]⟩

/-- The overlap seed of a closed chunk: its size field is the total token
count of the kept sentences, that total is within the overlap budget, and
the kept sentences are a suffix (the tail) of the closed chunk. -/
theorem overlapSeed_spec (budget : Nat) (cur : List String) :
    (overlapSeed budget cur).2 = sumTokens (overlapSeed budget cur).1 ∧
    (overlapSeed budget cur).2 ≤ budget ∧
    (overlapSeed budget cur).1 <:+ cur := by
  refine ⟨overlapSeedGo_size budget cur.reverse 0 [] rfl,
    overlapSeedGo_le budget cur.reverse 0 [] (Nat.zero_le budget), ?_⟩
  obtain ⟨p, hp, he⟩ := overlapSeedGo_shape budget cur.reverse 0 []
  rw [show overlapSeed budget cur = overlapSeedGo budget cur.reverse 0 []
    from rfl, he, List.append_nil]
  have : p.reverse.reverse <+: cur.reverse := by simpa using hp
  exact (List.reverse_prefix.mp (by simpa using hp))

/-! ## Chunk-size bound -/

/-- Definitional unfolding of the packing loop on an empty sentence
list. -/
theorem chunkGo_nil (cs co : Nat) (cur : List String) (sz : Nat) :
    chunkGo cs co [] cur sz =
      if cur.isEmpty then [] else [joinSpace cur] := rfl

/-- Definitional unfolding of the packing loop on one sentence. -/
theorem chunkGo_cons (cs co : Nat) (s : String) (rest cur : List String)
    (sz : Nat) :
    chunkGo cs co (s :: rest) cur sz =
      if cs < count_tokens s then
        (if cur.isEmpty then [] else [joinSpace cur]) ++
          split_long_sentence cs s ++ chunkGo cs co rest [] 0
      else if cs < sz + count_tokens s then
        if cur.isEmpty then chunkGo cs co rest [s] (sz + count_tokens s)
        else joinSpace cur ::
          chunkGo cs co rest ((overlapSeed co cur).1 ++ [s])
            ((overlapSeed co cur).2 + count_tokens s)
      else chunkGo cs co rest (cur ++ [s]) (sz + count_tokens s) := rfl

/-- Invariant of the packing loop: when every remaining sentence fits in
`chunk_size` and `curSize` is the token count of the current chunk and is
within `chunk_size + chunk_overlap`, every emitted chunk's token count is
within `chunk_size + chunk_overlap`. -/
theorem chunkGo_bound (cs co : Nat) : ∀ (l cur : List String) (sz : Nat),
    (∀ s ∈ l, count_tokens s ≤ cs) → sz = sumTokens cur → sz ≤ cs + co →
    ∀ t ∈ chunkGo cs co l cur sz, count_tokens t ≤ cs + co := by
  intro l
  induction l with
  | nil =>
    intro cur sz _ hsum hle t ht
    rw [chunkGo_nil] at ht
    by_cases hc : cur.isEmpty
    · simp [hc] at ht
    · rw [if_neg hc, List.mem_singleton] at ht
      subst ht
      rw [count_tokens_joinSpace, ← hsum]
      exact hle
  | cons s rest ih =>
    intro cur sz hall hsum hle t ht
    have hs : count_tokens s ≤ cs := hall s (by simp)
    have hrest : ∀ x ∈ rest, count_tokens x ≤ cs := fun x hx =>
      hall x (by simp [hx])
    have hnotlong : ¬ cs < count_tokens s := not_lt.mpr hs
    rw [chunkGo_cons, if_neg hnotlong] at ht
    by_cases hover : cs < sz + count_tokens s
    · rw [if_pos hover] at ht
      by_cases hc : cur.isEmpty
      · rw [if_pos hc] at ht
        have hcur : cur = [] := List.isEmpty_iff.mp hc
        have hsz : sz = 0 := by rw [hsum, hcur]; rfl
        refine ih [s] (sz + count_tokens s) hrest ?_ ?_ t ht
        · simp [sumTokens, hsz]
        · omega
      · rw [if_neg hc, List.mem_cons] at ht
        rcases ht with ht | ht
        · subst ht
          rw [count_tokens_joinSpace, ← hsum]
          exact hle
        · obtain ⟨hsize, hbud, _⟩ := overlapSeed_spec co cur
          refine ih ((overlapSeed co cur).1 ++ [s])
            ((overlapSeed co cur).2 + count_tokens s) hrest ?_ ?_ t ht
          · rw [sumTokens_append, ← hsize]
            simp [sumTokens]
          · omega
    · rw [if_neg hover] at ht
      refine ih (cur ++ [s]) (sz + count_tokens s) hrest ?_ ?_ t ht
      · rw [sumTokens_append, ← hsum]; simp [sumTokens]
      · omega

/-- Chunk-size bound for `_chunk_text` on a text whose sentences all fit
in `chunk_size`. -/
theorem chunk_text_bound (cs co : Nat) (text : String)
    (hne : split_into_sentences text ≠ [])
    (hall : ∀ s ∈ split_into_sentences text, count_tokens s ≤ cs) :
    ∀ t ∈ chunk_text cs co text, count_tokens t ≤ cs + co := by
  intro t ht
  unfold chunk_text at ht
  rw [if_neg (by simpa [List.isEmpty_iff] using hne)] at ht
  exact chunkGo_bound cs co (split_into_sentences text) [] 0 hall rfl
    (Nat.zero_le _) t ht

/-! ## Provenance of emitted chunk records -/

/-- Every chunk record emitted for a page carries the stripped chunk
text, its token count, the page number and the canonical citation of its
own id. -/
theorem mem_emitChunks : ∀ (ts : List String) (pn cid : Nat) (c : Chunk),
    c ∈ emitChunks pn cid ts → ∃ t ∈ ts, c.text = pyStrip t ∧
      c.token_count = count_tokens t ∧ c.page_num = pn ∧
      c.citation = mkCitation c.page_num c.chunk_id := by
  intro ts
  induction ts with
  | nil => intro pn cid c h; simp [emitChunks] at h
  | cons t ts ih =>
    intro pn cid c h
    rw [emitChunks, List.mem_cons] at h
    rcases h with h | h
    · subst h
      exact ⟨t, by simp, rfl, rfl, rfl, rfl⟩
    · obtain ⟨u, hu, h1, h2, h3, h4⟩ := ih pn (cid + 1) c h
      exact ⟨u, by simp [hu], h1, h2, h3, h4⟩

/-- Every chunk produced by `chunk_pages`'s loop comes from a chunk text
of one of its pages that passed the minimum-length filter, with the
record fields derived from it. -/
theorem chunkPagesGo_src (cs co mn : Nat) : ∀ (pages : List Page)
    (cid : Nat) (c : Chunk), c ∈ chunkPagesGo cs co mn pages cid →
    ∃ p ∈ pages, ∃ t ∈ chunk_text cs co p.text,
      mn ≤ (pyStrip t).length ∧ c.text = pyStrip t ∧
      c.token_count = count_tokens t ∧ c.page_num = p.page_num ∧
      c.citation = mkCitation c.page_num c.chunk_id := by
  intro pages
  induction pages with
  | nil => intro cid c h; simp [chunkPagesGo] at h
  | cons p rest ih =>
    intro cid c h
    rw [chunkPagesGo] at h
    by_cases hskip : p.text = "" ∨ (pyStrip p.text).length < mn
    · rw [if_pos hskip] at h
      obtain ⟨q, hq, rest⟩ := ih cid c h
      exact ⟨q, by simp [hq], rest⟩
    · rw [if_neg hskip] at h
      rcases List.mem_append.mp h with h | h
      · obtain ⟨t, htk, h1, h2, h3, h4⟩ := mem_emitChunks _ _ _ _ h
        obtain ⟨htc, htf⟩ := List.mem_filter.mp htk
        exact ⟨p, by simp, t, htc, by simpa using htf, h1, h2, h3, h4⟩
      · obtain ⟨q, hq, rest'⟩ := ih _ c h
        exact ⟨q, by simp [hq], rest'⟩

/-! ## Claim C2 -/

/-- C2, counterexample: with `target_size = 10` and `overlap = 9`
(a valid parameter setting, `0 ≤ 9 < 10`), the page made of three
sentences of 9, 9 and 2 tokens yields chunks of 9, 18 and 11 tokens —
two of them exceed `target_size`, refuting the claimed bound (the seeded
overlap plus the next sentence may exceed `target_size`). -/
theorem claim_C2_counterexample :
    ((chunk_pages 10 9 1
        [⟨1, "aa bb cc dd ee ff gg hh ii. jj kk ll mm nn oo pp qq rr. ss tt."⟩]).map
      (fun c => c.token_count)) = [9, 18, 11] ∧ ¬ (18 ≤ 10) := by
  constructor
  · decide
  · decide

/-- C2, amended: the bound `target_size` alone does not hold; the correct
bound for the sentence-packing path is `target_size + overlap`: for every
page whose text splits into at least one sentence, each of token count at
most `target_size` (so the clause-splitting fallback is never reached),
every emitted chunk's token count is at most `target_size + overlap`. -/
theorem claim_C2_amended (cs co mn : Nat) (pages : List Page)
    (hs : ∀ p ∈ pages, split_into_sentences p.text ≠ [] ∧
      ∀ s ∈ split_into_sentences p.text, count_tokens s ≤ cs) :
    ∀ c ∈ chunk_pages cs co mn pages, c.token_count ≤ cs + co := by
  intro c hc
  obtain ⟨p, hp, t, ht, _, _, htok, _, _⟩ :=
    chunkPagesGo_src cs co mn pages 0 c hc
  rw [htok]
  exact chunk_text_bound cs co p.text (hs p hp).1 (hs p hp).2 t ht

/-- C2, witness for the amended theorem at the counterexample's input:
its three sentences have 9, 9 and 2 tokens, all at most 10, and the
18-token chunk emitted there is within `10 + 9 = 19` tokens. -/
theorem claim_C2_witness :
    ∃ c, c ∈ chunk_pages 10 9 1
      [⟨1, "aa bb cc dd ee ff gg hh ii. jj kk ll mm nn oo pp qq rr. ss tt."⟩] ∧
      c.token_count ≤ 10 + 9 := by
  have hne : chunk_pages 10 9 1
      [⟨1, "aa bb cc dd ee ff gg hh ii. jj kk ll mm nn oo pp qq rr. ss tt."⟩] ≠
      [] := by decide
  obtain ⟨c, cs, hl⟩ := List.exists_cons_of_ne_nil hne
  have hc : c ∈ chunk_pages 10 9 1
      [⟨1, "aa bb cc dd ee ff gg hh ii. jj kk ll mm nn oo pp qq rr. ss tt."⟩] := by
    rw [hl]; simp
  exact ⟨c, hc, claim_C2_amended 10 9 1 _ (by decide) c hc⟩

/-! ## Claim C7 -/

/-- C7, counterexample: with the default configuration
(`chunk_size = 500`, `overlap = 100`, `min_chunk_size = 50`) a page whose
text is a single 60-character word is emitted as a chunk with
`token_count = 1 < 50`: the minimum-size filter compares the *character*
length of the text, not the token count, so the claimed invariant
`token_count ≥ min_chunk_size` fails. -/
theorem claim_C7_counterexample :
    ((chunk_pages 500 100 50 [⟨1, String.mk (List.replicate 60 'a')⟩]).map
      (fun c => c.token_count)) = [1] ∧ ¬ (50 ≤ 1) := by
  constructor
  · decide
  · decide

/-- C7, amended: what `chunk_pages` guarantees is the character-length
form of the invariant: every emitted chunk's (stripped) text has at least
`min_chunk_size` characters — in particular, when `min_chunk_size ≥ 1`,
chunks are never empty.  The token-count form does not hold. -/
theorem claim_C7_amended (cs co mn : Nat) (pages : List Page) :
    ∀ c ∈ chunk_pages cs co mn pages,
      mn ≤ c.text.length ∧ (1 ≤ mn → c.text ≠ "") := by
  intro c hc
  obtain ⟨p, _, t, _, hlen, htext, _, _, _⟩ :=
    chunkPagesGo_src cs co mn pages 0 c hc
  constructor
  · rw [htext]; exact hlen
  · intro hmn hempty
    have h0 : (pyStrip t).length = 0 := by rw [← htext, hempty]; rfl
    omega


/-- C7, witness for the amended theorem at a concrete one-page document:
its single emitted chunk's text has at least 50 characters and is
non-empty. -/
theorem claim_C7_witness :
    ∃ c, c ∈ chunk_pages 500 100 50 [demoPage] ∧ 50 ≤ c.text.length ∧
      (1 ≤ 50 → c.text ≠ "") := by
  have hne : chunk_pages 500 100 50 [demoPage] ≠ [] := by decide
  obtain ⟨c, cs, hl⟩ := List.exists_cons_of_ne_nil hne
  have hc : c ∈ chunk_pages 500 100 50 [demoPage] := by rw [hl]; simp
  obtain ⟨h1, h2⟩ := claim_C7_amended 500 100 50 [demoPage] c hc
  exact ⟨c, hc, h1, h2⟩

/-! ## Claim C8 -/

/-- C8: when the packing loop closes a chunk (the next sentence fits in
`target_size` but would overflow the non-empty current chunk), the next
chunk is seeded with exactly the overlap seed of the closed chunk; that
seed is a trailing subsequence (suffix) of the closed chunk's sentences,
it is the head of the next chunk, and its token count — the token overlap
carried from chunk *i* to chunk *i+1* — is at most the configured
`overlap`. -/
theorem claim_C8 (cs co : Nat) (s : String) (rest current : List String)
    (curSize : Nat) (h1 : count_tokens s ≤ cs)
    (h2 : cs < curSize + count_tokens s) (h3 : current ≠ []) :
    chunkGo cs co (s :: rest) current curSize =
      joinSpace current ::
        chunkGo cs co rest ((overlapSeed co current).1 ++ [s])
          ((overlapSeed co current).2 + count_tokens s) ∧
    (overlapSeed co current).1 <:+ current ∧
    count_tokens (joinSpace (overlapSeed co current).1) ≤ co := by
  obtain ⟨hsize, hbud, hsuf⟩ := overlapSeed_spec co current
  refine ⟨?_, hsuf, ?_⟩
  · rw [chunkGo_cons, if_neg (not_lt.mpr h1), if_pos h2,
      if_neg (by simpa [List.isEmpty_iff] using h3)]
  · rw [count_tokens_joinSpace, ← hsize]
    exact hbud

/-- C8, witness at `target_size = 10`, `overlap = 9`: closing the
two-sentence chunk of 18 tokens on the arrival of a 2-token sentence
seeds the next chunk with the closed chunk's 9-token tail sentence. -/
theorem claim_C8_witness :
    (chunkGo 10 9 ["ss tt."]
        ["aa bb cc dd ee ff gg hh ii.", "jj kk ll mm nn oo pp qq rr."] 18 =
      joinSpace ["aa bb cc dd ee ff gg hh ii.", "jj kk ll mm nn oo pp qq rr."] ::
        chunkGo 10 9 []
          ((overlapSeed 9 ["aa bb cc dd ee ff gg hh ii.", "jj kk ll mm nn oo pp qq rr."]).1 ++ ["ss tt."])
          ((overlapSeed 9 ["aa bb cc dd ee ff gg hh ii.", "jj kk ll mm nn oo pp qq rr."]).2 + count_tokens "ss tt.")) ∧
    (overlapSeed 9 ["aa bb cc dd ee ff gg hh ii.", "jj kk ll mm nn oo pp qq rr."]).1 <:+
      ["aa bb cc dd ee ff gg hh ii.", "jj kk ll mm nn oo pp qq rr."] ∧
    count_tokens (joinSpace
      (overlapSeed 9 ["aa bb cc dd ee ff gg hh ii.", "jj kk ll mm nn oo pp qq rr."]).1) ≤ 9 :=
  claim_C8 10 9 "ss tt." []
    ["aa bb cc dd ee ff gg hh ii.", "jj kk ll mm nn oo pp qq rr."] 18
    (by decide) (by decide) (by decide)

/-! ## Association-list lemmas for the RRF dict -/

theorem fmLookup_cons (q : Nat × FEntry) (ms : FMap) (x : Nat) :
    fmLookup (q :: ms) x = if q.1 = x then some q.2 else fmLookup ms x := by
  by_cases h : q.1 = x
  · have hd : (fun p : Nat × FEntry => decide (p.1 = x)) q = true := by
      simpa using h
    rw [if_pos h]
    unfold fmLookup
    rw [List.find?_cons_of_pos ms hd]
    rfl
  · have hd : ¬ (fun p : Nat × FEntry => decide (p.1 = x)) q = true := by
      simpa using h
    rw [if_neg h]
    unfold fmLookup
    rw [List.find?_cons_of_neg ms hd]

theorem fmContains_cons (q : Nat × FEntry) (ms : FMap) (k : Nat) :
    fmContains (q :: ms) k = (decide (q.1 = k) || fmContains ms k) := rfl

theorem fmModify_cons (q : Nat × FEntry) (ms : FMap) (k : Nat)
    (f : FEntry → FEntry) :
    fmModify (q :: ms) k f =
      (if q.1 = k then (q.1, f q.2) else q) :: fmModify ms k f := rfl

theorem fmContains_eq_isSome (m : FMap) (k : Nat) :
    fmContains m k = (fmLookup m k).isSome := by
  induction m with
  | nil => rfl
  | cons q ms ih =>
    rw [fmContains_cons, fmLookup_cons, ih]
    by_cases h : q.1 = k
    · simp [h]
    · simp [h]

theorem fmContains_eq_mem (m : FMap) (k : Nat) :
    fmContains m k = true ↔ k ∈ m.map (·.1) := by
  induction m with
  | nil => simp [fmContains]
  | cons q ms ih =>
    rw [fmContains_cons]
    simp only [List.map_cons, List.mem_cons, Bool.or_eq_true,
      decide_eq_true_eq]
    exact or_congr eq_comm ih

theorem fmLookup_modify_ne (k x : Nat) (f : FEntry → FEntry)
    (h : ¬ k = x) : ∀ (m : FMap),
    fmLookup (fmModify m k f) x = fmLookup m x := by
  intro m
  induction m with
  | nil => rfl
  | cons q ms ih =>
    by_cases hq : q.1 = k
    · have e1 : fmModify (q :: ms) k f = (q.1, f q.2) :: fmModify ms k f := by
        rw [fmModify_cons, if_pos hq]
      have hx : ¬ q.1 = x := fun hh => h (hq.symm.trans hh)
      rw [e1, fmLookup_cons, fmLookup_cons, if_neg hx, if_neg hx, ih]
    · have e1 : fmModify (q :: ms) k f = q :: fmModify ms k f := by
        rw [fmModify_cons, if_neg hq]
      rw [e1, fmLookup_cons, fmLookup_cons, ih]

theorem fmLookup_modify_self (k : Nat) (f : FEntry → FEntry) :
    ∀ (m : FMap), fmLookup (fmModify m k f) k = (fmLookup m k).map f := by
  intro m
  induction m with
  | nil => rfl
  | cons q ms ih =>
    by_cases hq : q.1 = k
    · have e1 : fmModify (q :: ms) k f = (q.1, f q.2) :: fmModify ms k f := by
        rw [fmModify_cons, if_pos hq]
      rw [e1, fmLookup_cons, fmLookup_cons, if_pos hq, if_pos hq,
        Option.map_some']
    · have e1 : fmModify (q :: ms) k f = q :: fmModify ms k f := by
        rw [fmModify_cons, if_neg hq]
      rw [e1, fmLookup_cons, fmLookup_cons, if_neg hq, if_neg hq, ih]

theorem fmLookup_append_other (k x : Nat) (e : FEntry) (h : ¬ x = k) :
    ∀ (m : FMap), fmLookup (fmAppend m k e) x = fmLookup m x := by
  intro m
  induction m with
  | nil =>
    have hk : ¬ (k, e).1 = x := fun hh => h (hh.symm)
    rw [show fmAppend ([] : FMap) k e = [(k, e)] from rfl, fmLookup_cons,
      if_neg hk]
  | cons q ms ih =>
    rw [show fmAppend (q :: ms) k e = q :: fmAppend ms k e from rfl,
      fmLookup_cons, fmLookup_cons, ih]

theorem fmLookup_append_self (k : Nat) (e : FEntry) :
    ∀ (m : FMap), fmContains m k = false →
      fmLookup (fmAppend m k e) k = some e := by
  intro m
  induction m with
  | nil =>
    intro _
    rw [show fmAppend ([] : FMap) k e = [(k, e)] from rfl, fmLookup_cons,
      if_pos rfl]
  | cons q ms ih =>
    intro h
    rw [fmContains_cons] at h
    simp only [Bool.or_eq_false_iff, decide_eq_false_iff_not] at h
    rw [show fmAppend (q :: ms) k e = q :: fmAppend ms k e from rfl,
      fmLookup_cons, if_neg h.1]
    exact ih h.2

/-- The create-or-reuse-then-update step shared by both RRF loops: after
it, the entry at the key is the updated previous entry (or the updated
fresh entry when the key was absent). -/
theorem fmStep_lookup_self (m : FMap) (k : Nat) (init : FEntry)
    (f : FEntry → FEntry) :
    fmLookup (fmModify (if fmContains m k then m else fmAppend m k init) k f)
      k = some (f ((fmLookup m k).getD init)) := by
  by_cases h : fmContains m k
  · rw [if_pos h, fmLookup_modify_self]
    have hs := fmContains_eq_isSome m k
    rw [h] at hs
    obtain ⟨e, he⟩ := Option.isSome_iff_exists.mp hs.symm
    rw [he]
    rfl
  · have hf : fmContains m k = false := by
      cases hc : fmContains m k
      · rfl
      · exact absurd hc h
    have hn : fmLookup m k = none := by
      have hs := fmContains_eq_isSome m k
      rw [hf] at hs
      cases ho : fmLookup m k
      · rfl
      · rw [ho] at hs; simp at hs
    rw [if_neg h, fmLookup_modify_self, fmLookup_append_self k init m hf, hn]
    rfl

/-- The create-or-reuse-then-update step leaves every other key's entry
unchanged. -/
theorem fmStep_lookup_ne (m : FMap) (k : Nat) (init : FEntry)
    (f : FEntry → FEntry) (x : Nat) (h : ¬ k = x) :
    fmLookup (fmModify (if fmContains m k then m else fmAppend m k init) k f)
      x = fmLookup m x := by
  by_cases hc : fmContains m k
  · rw [if_pos hc, fmLookup_modify_ne k x f h m]
  · rw [if_neg hc, fmLookup_modify_ne k x f h _,
      fmLookup_append_other k x init (fun hh => h hh.symm) m]

theorem fmModify_keys (m : FMap) (k : Nat) (f : FEntry → FEntry) :
    (fmModify m k f).map (·.1) = m.map (·.1) := by
  induction m with
  | nil => rfl
  | cons q ms ih =>
    by_cases hq : q.1 = k
    · have e1 : fmModify (q :: ms) k f = (q.1, f q.2) :: fmModify ms k f := by
        rw [fmModify_cons, if_pos hq]
      rw [e1, List.map_cons, List.map_cons, ih]
    · have e1 : fmModify (q :: ms) k f = q :: fmModify ms k f := by
        rw [fmModify_cons, if_neg hq]
      rw [e1, List.map_cons, List.map_cons, ih]

/-! ## The RRF accumulation loops -/

theorem procVector_cons (vw : ℚ) (c : RDoc) (s : ℚ)
    (rest : List (RDoc × ℚ)) (rank : Nat) (m : FMap) :
    procVector vw ((c, s) :: rest) rank m =
      procVector vw rest (rank + 1)
        (fmModify (if fmContains m c.chunk_id then m
            else fmAppend m c.chunk_id ⟨c, s, 0, 0⟩) c.chunk_id
          fun e => { e with
            rrf_score := e.rrf_score + vw / (60 + rank + 1),
            vector_score := s }) := rfl

theorem procBM25_cons (bw : ℚ) (c : RDoc) (s : ℚ)
    (rest : List (RDoc × ℚ)) (rank : Nat) (m : FMap) :
    procBM25 bw ((c, s) :: rest) rank m =
      procBM25 bw rest (rank + 1)
        (fmModify (if fmContains m c.chunk_id then m
            else fmAppend m c.chunk_id ⟨c, 0, s, 0⟩) c.chunk_id
          fun e => { e with
            rrf_score := e.rrf_score + bw / (60 + rank + 1),
            bm25_score := s }) := rfl

theorem rankContribOff_cons_self (w : ℚ) (c : RDoc) (s : ℚ)
    (rest : List (RDoc × ℚ)) (r0 : Nat) :
    rankContribOff w ((c, s) :: rest) c.chunk_id r0 =
      w / (60 + (r0 : ℚ) + 1) := by
  unfold rankContribOff
  rw [List.findIdx?_cons, if_pos (by simp)]

theorem rankContribOff_cons_ne (w : ℚ) (c : RDoc) (s : ℚ)
    (rest : List (RDoc × ℚ)) (x : Nat) (r0 : Nat) (h : ¬ c.chunk_id = x) :
    rankContribOff w ((c, s) :: rest) x r0 =
      rankContribOff w rest x (r0 + 1) := by
  unfold rankContribOff
  rw [List.findIdx?_cons, if_neg (by simpa using h)]

/-- Full characterization of the vector loop: the entry a chunk id holds
after the loop, in terms of its entry before the loop and the id's first
occurrence in the processed ranking (ranks offset by `r0`). -/
theorem procVector_lookup (vw : ℚ) : ∀ (l : List (RDoc × ℚ)) (r0 : Nat)
    (m : FMap) (x : Nat), ((l.map fun p => p.1.chunk_id).Nodup) →
    fmLookup (procVector vw l r0 m) x =
      match l.find? (fun p => p.1.chunk_id = x), fmLookup m x with
      | none, o => o
      | some p, none => some ⟨p.1, p.2, 0, rankContribOff vw l x r0⟩
      | some p, some e =>
        some { e with
               vector_score := p.2
               rrf_score := e.rrf_score + rankContribOff vw l x r0 } := by
  intro l
  induction l with
  | nil => intro r0 m x _; rfl
  | cons hd rest ih =>
    obtain ⟨c, s⟩ := hd
    intro r0 m x hn
    rw [List.map_cons, List.nodup_cons] at hn
    by_cases hcx : c.chunk_id = x
    · subst hcx
      have hd : (fun p : RDoc × ℚ => decide (p.1.chunk_id = c.chunk_id))
          (c, s) = true := by simp
      have hfind : ((c, s) :: rest).find?
          (fun p => p.1.chunk_id = c.chunk_id) = some (c, s) :=
        List.find?_cons_of_pos rest hd
      have hrestnone : rest.find?
          (fun p => p.1.chunk_id = c.chunk_id) = none := by
        rw [List.find?_eq_none]
        intro p hp hpx
        simp only [decide_eq_true_eq] at hpx
        exact hn.1 (List.mem_map.mpr ⟨p, hp, hpx⟩)
      rw [procVector_cons, ih (r0 + 1) _ c.chunk_id hn.2]
      simp only [hrestnone, hfind]
      rw [fmStep_lookup_self]
      cases ho : fmLookup m c.chunk_id
      · simp only [ho, Option.getD_none]
        rw [rankContribOff_cons_self vw c s rest r0]
        simp
      · simp only [ho, Option.getD_some]
        rw [rankContribOff_cons_self vw c s rest r0]
    · have hd : ¬ (fun p : RDoc × ℚ => decide (p.1.chunk_id = x))
          (c, s) = true := by simpa using hcx
      have hfind : ((c, s) :: rest).find? (fun p => p.1.chunk_id = x) =
          rest.find? (fun p => p.1.chunk_id = x) :=
        List.find?_cons_of_neg rest hd
      rw [procVector_cons, ih (r0 + 1) _ x hn.2]
      simp only [hfind, fmStep_lookup_ne m c.chunk_id _ _ x hcx,
        rankContribOff_cons_ne vw c s rest x r0 hcx]

/-- Full characterization of the BM25 loop, symmetric to the vector
loop's. -/
theorem procBM25_lookup (bw : ℚ) : ∀ (l : List (RDoc × ℚ)) (r0 : Nat)
    (m : FMap) (x : Nat), ((l.map fun p => p.1.chunk_id).Nodup) →
    fmLookup (procBM25 bw l r0 m) x =
      match l.find? (fun p => p.1.chunk_id = x), fmLookup m x with
      | none, o => o
      | some p, none => some ⟨p.1, 0, p.2, rankContribOff bw l x r0⟩
      | some p, some e =>
        some { e with
               bm25_score := p.2
               rrf_score := e.rrf_score + rankContribOff bw l x r0 } := by
  intro l
  induction l with
  | nil => intro r0 m x _; rfl
  | cons hd rest ih =>
    obtain ⟨c, s⟩ := hd
    intro r0 m x hn
    rw [List.map_cons, List.nodup_cons] at hn
    by_cases hcx : c.chunk_id = x
    · subst hcx
      have hd : (fun p : RDoc × ℚ => decide (p.1.chunk_id = c.chunk_id))
          (c, s) = true := by simp
      have hfind : ((c, s) :: rest).find?
          (fun p => p.1.chunk_id = c.chunk_id) = some (c, s) :=
        List.find?_cons_of_pos rest hd
      have hrestnone : rest.find?
          (fun p => p.1.chunk_id = c.chunk_id) = none := by
        rw [List.find?_eq_none]
        intro p hp hpx
        simp only [decide_eq_true_eq] at hpx
        exact hn.1 (List.mem_map.mpr ⟨p, hp, hpx⟩)
      rw [procBM25_cons, ih (r0 + 1) _ c.chunk_id hn.2]
      simp only [hrestnone, hfind]
      rw [fmStep_lookup_self]
      cases ho : fmLookup m c.chunk_id
      · simp only [ho, Option.getD_none]
        rw [rankContribOff_cons_self bw c s rest r0]
        simp
      · simp only [ho, Option.getD_some]
        rw [rankContribOff_cons_self bw c s rest r0]
    · have hd : ¬ (fun p : RDoc × ℚ => decide (p.1.chunk_id = x))
          (c, s) = true := by simpa using hcx
      have hfind : ((c, s) :: rest).find? (fun p => p.1.chunk_id = x) =
          rest.find? (fun p => p.1.chunk_id = x) :=
        List.find?_cons_of_neg rest hd
      rw [procBM25_cons, ih (r0 + 1) _ x hn.2]
      simp only [hfind, fmStep_lookup_ne m c.chunk_id _ _ x hcx,
        rankContribOff_cons_ne bw c s rest x r0 hcx]

/-- Every key present after the vector loop was present before or is one
of the processed ids. -/
theorem procVector_keys_sub (vw : ℚ) : ∀ (l : List (RDoc × ℚ)) (r0 : Nat)
    (m : FMap) (y : Nat), y ∈ (procVector vw l r0 m).map (·.1) →
    y ∈ m.map (·.1) ∨ y ∈ l.map fun p => p.1.chunk_id := by
  intro l
  induction l with
  | nil => intro r0 m y hy; exact Or.inl hy
  | cons hd rest ih =>
    obtain ⟨c, s⟩ := hd
    intro r0 m y hy
    rw [procVector_cons] at hy
    rcases ih (r0 + 1) _ y hy with h | h
    · rw [fmModify_keys] at h
      by_cases hc : fmContains m c.chunk_id
      · rw [if_pos hc] at h
        exact Or.inl h
      · rw [if_neg hc,
          show fmAppend m c.chunk_id ⟨c, s, 0, 0⟩ =
            m ++ [(c.chunk_id, ⟨c, s, 0, 0⟩)] from rfl,
          List.map_append, List.mem_append] at h
        rcases h with h | h
        · exact Or.inl h
        · simp only [List.map_cons, List.map_nil, List.mem_singleton] at h
          exact Or.inr (by simp [h])
    · exact Or.inr (by simp [h])

/-- Every key present after the BM25 loop was present before or is one
of the processed ids. -/
theorem procBM25_keys_sub (bw : ℚ) : ∀ (l : List (RDoc × ℚ)) (r0 : Nat)
    (m : FMap) (y : Nat), y ∈ (procBM25 bw l r0 m).map (·.1) →
    y ∈ m.map (·.1) ∨ y ∈ l.map fun p => p.1.chunk_id := by
  intro l
  induction l with
  | nil => intro r0 m y hy; exact Or.inl hy
  | cons hd rest ih =>
    obtain ⟨c, s⟩ := hd
    intro r0 m y hy
    rw [procBM25_cons] at hy
    rcases ih (r0 + 1) _ y hy with h | h
    · rw [fmModify_keys] at h
      by_cases hc : fmContains m c.chunk_id
      · rw [if_pos hc] at h
        exact Or.inl h
      · rw [if_neg hc,
          show fmAppend m c.chunk_id ⟨c, 0, s, 0⟩ =
            m ++ [(c.chunk_id, ⟨c, 0, s, 0⟩)] from rfl,
          List.map_append, List.mem_append] at h
        rcases h with h | h
        · exact Or.inl h
        · simp only [List.map_cons, List.map_nil, List.mem_singleton] at h
          exact Or.inr (by simp [h])
    · exact Or.inr (by simp [h])

/-- The vector loop preserves distinctness of the dict's keys (a key is
appended only when absent). -/
theorem procVector_keys_nodup (vw : ℚ) : ∀ (l : List (RDoc × ℚ))
    (r0 : Nat) (m : FMap), (m.map (·.1)).Nodup →
    ((procVector vw l r0 m).map (·.1)).Nodup := by
  intro l
  induction l with
  | nil => intro r0 m h; exact h
  | cons hd rest ih =>
    obtain ⟨c, s⟩ := hd
    intro r0 m h
    rw [procVector_cons]
    refine ih (r0 + 1) _ ?_
    rw [fmModify_keys]
    by_cases hc : fmContains m c.chunk_id
    · rw [if_pos hc]; exact h
    · rw [if_neg hc,
        show fmAppend m c.chunk_id ⟨c, s, 0, 0⟩ =
          m ++ [(c.chunk_id, ⟨c, s, 0, 0⟩)] from rfl, List.map_append]
      rw [List.nodup_append]
      refine ⟨h, by simp, ?_⟩
      intro y hy hy2
      simp only [List.map_cons, List.map_nil, List.mem_singleton] at hy2
      subst hy2
      exact hc ((fmContains_eq_mem m _).mpr hy)

/-- The BM25 loop preserves distinctness of the dict's keys. -/
theorem procBM25_keys_nodup (bw : ℚ) : ∀ (l : List (RDoc × ℚ))
    (r0 : Nat) (m : FMap), (m.map (·.1)).Nodup →
    ((procBM25 bw l r0 m).map (·.1)).Nodup := by
  intro l
  induction l with
  | nil => intro r0 m h; exact h
  | cons hd rest ih =>
    obtain ⟨c, s⟩ := hd
    intro r0 m h
    rw [procBM25_cons]
    refine ih (r0 + 1) _ ?_
    rw [fmModify_keys]
    by_cases hc : fmContains m c.chunk_id
    · rw [if_pos hc]; exact h
    · rw [if_neg hc,
        show fmAppend m c.chunk_id ⟨c, 0, s, 0⟩ =
          m ++ [(c.chunk_id, ⟨c, 0, s, 0⟩)] from rfl, List.map_append]
      rw [List.nodup_append]
      refine ⟨h, by simp, ?_⟩
      intro y hy hy2
      simp only [List.map_cons, List.map_nil, List.mem_singleton] at hy2
      subst hy2
      exact hc ((fmContains_eq_mem m _).mpr hy)

/-- Modifying scores only (the chunk payload untouched) preserves the
key-payload coherence of the dict. -/
theorem fmModify_coherent (m : FMap) (k : Nat) (f : FEntry → FEntry)
    (hf : ∀ e, (f e).chunk = e.chunk)
    (h : ∀ p ∈ m, p.2.chunk.chunk_id = p.1) :
    ∀ p ∈ fmModify m k f, p.2.chunk.chunk_id = p.1 := by
  intro p hp
  obtain ⟨q, hq, he⟩ := List.mem_map.mp hp
  by_cases hqk : q.1 = k
  · rw [← he, if_pos hqk]
    show (f q.2).chunk.chunk_id = q.1
    rw [hf q.2]
    exact h q hq
  · rw [← he, if_neg hqk]
    exact h q hq

/-- Every entry written by the vector loop is keyed by its own chunk's
id. -/
theorem procVector_coherent (vw : ℚ) : ∀ (l : List (RDoc × ℚ)) (r0 : Nat)
    (m : FMap), (∀ p ∈ m, p.2.chunk.chunk_id = p.1) →
    ∀ p ∈ procVector vw l r0 m, p.2.chunk.chunk_id = p.1 := by
  intro l
  induction l with
  | nil => intro r0 m h; exact h
  | cons hd rest ih =>
    obtain ⟨c, s⟩ := hd
    intro r0 m h
    rw [procVector_cons]
    refine ih (r0 + 1) _ (fmModify_coherent _ _ _ (fun e => rfl) ?_)
    by_cases hc : fmContains m c.chunk_id
    · rw [if_pos hc]; exact h
    · rw [if_neg hc]
      intro p hp
      rcases List.mem_append.mp hp with hp | hp
      · exact h p hp
      · simp only [List.mem_singleton] at hp
        subst hp
        rfl

/-- Every entry written by the BM25 loop is keyed by its own chunk's
id. -/
theorem procBM25_coherent (bw : ℚ) : ∀ (l : List (RDoc × ℚ)) (r0 : Nat)
    (m : FMap), (∀ p ∈ m, p.2.chunk.chunk_id = p.1) →
    ∀ p ∈ procBM25 bw l r0 m, p.2.chunk.chunk_id = p.1 := by
  intro l
  induction l with
  | nil => intro r0 m h; exact h
  | cons hd rest ih =>
    obtain ⟨c, s⟩ := hd
    intro r0 m h
    rw [procBM25_cons]
    refine ih (r0 + 1) _ (fmModify_coherent _ _ _ (fun e => rfl) ?_)
    by_cases hc : fmContains m c.chunk_id
    · rw [if_pos hc]; exact h
    · rw [if_neg hc]
      intro p hp
      rcases List.mem_append.mp hp with hp | hp
      · exact h p hp
      · simp only [List.mem_singleton] at hp
        subst hp
        rfl

/-! ## The stable sort is a permutation -/

theorem insertStable_perm (stays : α → α → Bool) (x : α) :
    ∀ (l : List α), (insertStable stays x l).Perm (x :: l) := by
  intro l
  induction l with
  | nil => exact List.Perm.refl _
  | cons y ys ih =>
    by_cases h : stays y x
    · rw [show insertStable stays x (y :: ys) =
        if stays y x then y :: insertStable stays x ys
        else x :: y :: ys from rfl, if_pos h]
      exact (ih.cons y).trans (List.Perm.swap x y ys)
    · rw [show insertStable stays x (y :: ys) =
        if stays y x then y :: insertStable stays x ys
        else x :: y :: ys from rfl, if_neg h]

theorem pyListSort_perm (stays : α → α → Bool) (l : List α) :
    (pyListSort stays l).Perm l := by
  suffices h : ∀ (l acc : List α),
      (l.foldl (fun acc x => insertStable stays x acc) acc).Perm (acc ++ l) by
    simpa using h l []
  intro l
  induction l with
  | nil => intro acc; simp
  | cons x xs ih =>
    intro acc
    rw [List.foldl_cons]
    refine (ih (insertStable stays x acc)).trans ?_
    refine ((insertStable_perm stays x acc).append_right xs).trans ?_
    exact List.perm_middle.symm

/-! ## Auxiliary facts about find? and the fusion map -/

theorem rankContribOff_eq_zero (w : ℚ) (x : Nat) :
    ∀ (r : List (RDoc × ℚ)) (r0 : Nat),
    r.find? (fun p => p.1.chunk_id = x) = none →
    rankContribOff w r x r0 = 0 := by
  intro r
  induction r with
  | nil => intro r0 _; rfl
  | cons q qs ih =>
    intro r0 h
    have hq : ¬ (fun p : RDoc × ℚ => decide (p.1.chunk_id = x)) q = true := by
      intro hh
      rw [List.find?_cons_of_pos qs hh] at h
      exact Option.noConfusion h
    rw [List.find?_cons_of_neg qs hq] at h
    obtain ⟨c, sc⟩ := q
    have hq2 : ¬ c.chunk_id = x := by simpa using hq
    rw [rankContribOff_cons_ne w c sc qs x r0 hq2]
    exact ih (r0 + 1) h

theorem rankContrib_eq_zero (w : ℚ) (r : List (RDoc × ℚ)) (x : Nat)
    (h : r.find? (fun p => p.1.chunk_id = x) = none) :
    rankContrib w r x = 0 :=
  rankContribOff_eq_zero w x r 0 h

theorem find?_isSome_of_mem_ids (r : List (RDoc × ℚ)) (x : Nat)
    (h : x ∈ r.map fun p => p.1.chunk_id) :
    ∃ p, r.find? (fun p => p.1.chunk_id = x) = some p := by
  obtain ⟨q, hq, hqx⟩ := List.mem_map.mp h
  have : (r.find? (fun p => p.1.chunk_id = x)).isSome = true :=
    List.find?_isSome.mpr ⟨q, hq, by simpa using hqx⟩
  exact Option.isSome_iff_exists.mp this

theorem fmLookup_of_mem : ∀ (m : FMap), (m.map (·.1)).Nodup →
    ∀ p ∈ m, fmLookup m p.1 = some p.2 := by
  intro m
  induction m with
  | nil => intro _ p hp; exact absurd hp (List.not_mem_nil p)
  | cons q ms ih =>
    intro hnd p hp
    rw [List.map_cons, List.nodup_cons] at hnd
    rcases List.mem_cons.mp hp with hp | hp
    · subst hp
      rw [fmLookup_cons, if_pos rfl]
    · have hne : ¬ q.1 = p.1 := fun hh =>
        hnd.1 (hh ▸ List.mem_map.mpr ⟨p, hp, rfl⟩)
      rw [fmLookup_cons, if_neg hne]
      exact ih hnd.2 p hp

/-- The keys of the fused dict all come from one of the two rankings. -/
theorem rrfMap_keys_sub (vres bres : List (RDoc × ℚ)) (vw bw : ℚ)
    (y : Nat) (hy : y ∈ (rrfMap vres bres vw bw).map (·.1)) :
    (y ∈ vres.map fun p => p.1.chunk_id) ∨
    (y ∈ bres.map fun p => p.1.chunk_id) := by
  rcases procBM25_keys_sub bw bres 0 _ y hy with h | h
  · rcases procVector_keys_sub vw vres 0 [] y h with h2 | h2
    · exact absurd h2 (List.not_mem_nil y)
    · exact Or.inl h2
  · exact Or.inr h

/-- The keys of the fused dict are pairwise distinct. -/
theorem rrfMap_keys_nodup (vres bres : List (RDoc × ℚ)) (vw bw : ℚ) :
    ((rrfMap vres bres vw bw).map (·.1)).Nodup :=
  procBM25_keys_nodup bw bres 0 _
    (procVector_keys_nodup vw vres 0 [] (by simp))

/-- Every entry of the fused dict is keyed by its own chunk's id. -/
theorem rrfMap_coherent (vres bres : List (RDoc × ℚ)) (vw bw : ℚ) :
    ∀ p ∈ rrfMap vres bres vw bw, p.2.chunk.chunk_id = p.1 :=
  procBM25_coherent bw bres 0 _
    (procVector_coherent vw vres 0 [] (by intro p hp; simp at hp))

/-- The fused score and reported raw scores of every chunk id present in
either ranking (distinct ids assumed within each ranking, as delivered by
the sub-searches). -/
theorem rrfMap_lookup_eq (vres bres : List (RDoc × ℚ)) (vw bw : ℚ)
    (hv : ((vres.map fun p => p.1.chunk_id).Nodup))
    (hb : ((bres.map fun p => p.1.chunk_id).Nodup)) (x : Nat)
    (hx : (x ∈ vres.map fun p => p.1.chunk_id) ∨
      (x ∈ bres.map fun p => p.1.chunk_id)) :
    ∃ e, fmLookup (rrfMap vres bres vw bw) x = some e ∧
      e.rrf_score = rankContrib vw vres x + rankContrib bw bres x ∧
      e.vector_score = rankScore vres x ∧
      e.bm25_score = rankScore bres x := by
  have hmV := procVector_lookup vw vres 0 [] x hv
  rw [show fmLookup ([] : FMap) x = none from rfl] at hmV
  have hm := procBM25_lookup bw bres 0 (procVector vw vres 0 []) x hb
  cases hfv : vres.find? (fun p => p.1.chunk_id = x) with
  | none =>
    cases hfb : bres.find? (fun p => p.1.chunk_id = x) with
    | none =>
      exfalso
      rcases hx with hx | hx
      · obtain ⟨p, hp⟩ := find?_isSome_of_mem_ids vres x hx
        rw [hp] at hfv
        exact Option.noConfusion hfv
      · obtain ⟨p, hp⟩ := find?_isSome_of_mem_ids bres x hx
        rw [hp] at hfb
        exact Option.noConfusion hfb
    | some p =>
      rw [hfv] at hmV
      simp only at hmV
      rw [hfb, hmV] at hm
      simp only at hm
      refine ⟨_, hm, ?_, ?_, ?_⟩
      · show rankContribOff bw bres x 0 =
          rankContrib vw vres x + rankContrib bw bres x
        rw [rankContrib_eq_zero vw vres x hfv, zero_add]
        rfl
      · show (0 : ℚ) = rankScore vres x
        rw [rankScore, hfv]
        rfl
      · show p.2 = rankScore bres x
        rw [rankScore, hfb]
        rfl
  | some p =>
    rw [hfv] at hmV
    simp only at hmV
    cases hfb : bres.find? (fun p => p.1.chunk_id = x) with
    | none =>
      rw [hfb, hmV] at hm
      simp only at hm
      refine ⟨_, hm, ?_, ?_, ?_⟩
      · show rankContribOff vw vres x 0 =
          rankContrib vw vres x + rankContrib bw bres x
        rw [rankContrib_eq_zero bw bres x hfb, add_zero]
        rfl
      · show p.2 = rankScore vres x
        rw [rankScore, hfv]
        rfl
      · show (0 : ℚ) = rankScore bres x
        rw [rankScore, hfb]
        rfl
    | some q =>
      rw [hfb, hmV] at hm
      simp only at hm
      refine ⟨_, hm, ?_, ?_, ?_⟩
      · show rankContribOff vw vres x 0 + rankContribOff bw bres x 0 =
          rankContrib vw vres x + rankContrib bw bres x
        rfl
      · show p.2 = rankScore vres x
        rw [rankScore, hfv]
        rfl
      · show q.2 = rankScore bres x
        rw [rankScore, hfb]
        rfl

/-! ## Stability of the final sort -/

/-- The insertion step of the stable descending sort splits the list at
the first element of strictly smaller key. -/
theorem insertStable_eq_take_drop (key : α → ℚ) (x : α) : ∀ (l : List α),
    insertStable (fun y z => decide (key z ≤ key y)) x l =
      l.takeWhile (fun y => decide (key x ≤ key y)) ++
        x :: l.dropWhile (fun y => decide (key x ≤ key y)) := by
  intro l
  induction l with
  | nil => rfl
  | cons y ys ih =>
    by_cases h : key x ≤ key y
    · rw [show insertStable (fun y z => decide (key z ≤ key y)) x (y :: ys) =
        if decide (key x ≤ key y) then
          y :: insertStable (fun y z => decide (key z ≤ key y)) x ys
        else x :: y :: ys from rfl]
      simp [h, ih]
    · rw [show insertStable (fun y z => decide (key z ≤ key y)) x (y :: ys) =
        if decide (key x ≤ key y) then
          y :: insertStable (fun y z => decide (key z ≤ key y)) x ys
        else x :: y :: ys from rfl]
      simp [h]

/-- The list grows by one insertion: the old elements keep their relative
order. -/
theorem sublist_insertStable (stays : α → α → Bool) (x : α) :
    ∀ (l : List α), l.Sublist (insertStable stays x l) := by
  intro l
  induction l with
  | nil => exact List.nil_sublist _
  | cons y ys ih =>
    by_cases h : stays y x
    · rw [show insertStable stays x (y :: ys) =
        if stays y x then y :: insertStable stays x ys
        else x :: y :: ys from rfl, if_pos h]
      exact ih.cons₂ y
    · rw [show insertStable stays x (y :: ys) =
        if stays y x then y :: insertStable stays x ys
        else x :: y :: ys from rfl, if_neg h]
      exact (List.Sublist.refl _).cons x

/-- Inserting into a descending-sorted list keeps it sorted. -/
theorem insertStable_sorted (key : α → ℚ) (x : α) : ∀ (l : List α),
    List.Pairwise (fun a b => key b ≤ key a) l →
    List.Pairwise (fun a b => key b ≤ key a)
      (insertStable (fun y z => decide (key z ≤ key y)) x l) := by
  intro l
  induction l with
  | nil => intro _; exact List.pairwise_cons.mpr ⟨by simp, List.Pairwise.nil⟩
  | cons y ys ih =>
    intro hs
    rw [List.pairwise_cons] at hs
    by_cases h : key x ≤ key y
    · rw [show insertStable (fun y z => decide (key z ≤ key y)) x (y :: ys) =
        if decide (key x ≤ key y) then
          y :: insertStable (fun y z => decide (key z ≤ key y)) x ys
        else x :: y :: ys from rfl, if_pos (by simpa using h)]
      rw [List.pairwise_cons]
      refine ⟨?_, ih hs.2⟩
      intro b hb
      rcases List.mem_cons.mp ((insertStable_perm _ x ys).mem_iff.mp hb)
        with hb | hb
      · subst hb; exact h
      · exact hs.1 b hb
    · rw [show insertStable (fun y z => decide (key z ≤ key y)) x (y :: ys) =
        if decide (key x ≤ key y) then
          y :: insertStable (fun y z => decide (key z ≤ key y)) x ys
        else x :: y :: ys from rfl, if_neg (by simpa using h)]
      rw [List.pairwise_cons]
      refine ⟨?_, List.pairwise_cons.mpr hs⟩
      intro b hb
      rcases List.mem_cons.mp hb with hb | hb
      · subst hb; exact le_of_not_le h
      · exact (hs.1 b hb).trans (le_of_not_le h)

/-- Python's stable sort always yields a descending-sorted list. -/
theorem pyListSort_sorted (key : α → ℚ) (l : List α) :
    List.Pairwise (fun a b => key b ≤ key a)
      (pyListSort (fun y z => decide (key z ≤ key y)) l) := by
  suffices h : ∀ (l acc : List α),
      List.Pairwise (fun a b => key b ≤ key a) acc →
      List.Pairwise (fun a b => key b ≤ key a)
        (l.foldl (fun acc x =>
          insertStable (fun y z => decide (key z ≤ key y)) x acc) acc) by
    exact h l [] List.Pairwise.nil
  intro l
  induction l with
  | nil => intro acc h; exact h
  | cons x xs ih =>
    intro acc h
    rw [List.foldl_cons]
    exact ih _ (insertStable_sorted key x acc h)

/-- In a descending-sorted list, an element whose key is at least `key x`
lies in the prefix that the insertion of `x` walks past. -/
theorem mem_takeWhile_of_sorted (key : α → ℚ) (x a : α) : ∀ (l : List α),
    List.Pairwise (fun a b => key b ≤ key a) l → a ∈ l → key x ≤ key a →
    a ∈ l.takeWhile (fun y => decide (key x ≤ key y)) := by
  intro l
  induction l with
  | nil => intro _ ha _; exact absurd ha (List.not_mem_nil a)
  | cons y ys ih =>
    intro hs ha hx
    rw [List.pairwise_cons] at hs
    rcases List.mem_cons.mp ha with ha | ha
    · subst ha
      rw [List.takeWhile_cons, if_pos (by simpa using hx)]
      exact List.mem_cons_self a _
    · have hy : key x ≤ key y := hx.trans (hs.1 a ha)
      rw [List.takeWhile_cons, if_pos (by simpa using hy)]
      exact List.mem_cons_of_mem y (ih hs.2 ha hx)

/-- Inserting an element whose key ties with one already present places
it after the present one: the pair keeps first-come order. -/
theorem stable_insert_pair (key : α → ℚ) (a b : α)
    (hab : key a = key b) : ∀ (acc : List α),
    List.Pairwise (fun a b => key b ≤ key a) acc → a ∈ acc →
    [a, b].Sublist (insertStable (fun y z => decide (key z ≤ key y)) b acc) := by
  intro acc hs ha
  rw [insertStable_eq_take_drop]
  have ha' : a ∈ acc.takeWhile (fun y => decide (key b ≤ key y)) :=
    mem_takeWhile_of_sorted key b a acc hs ha (le_of_eq hab.symm)
  obtain ⟨t1, t2, ht⟩ := List.append_of_mem ha'
  rw [ht, List.append_assoc, List.cons_append]
  refine List.sublist_append_of_sublist_right ?_
  refine List.Sublist.cons₂ a ?_
  refine List.sublist_append_of_sublist_right ?_
  exact List.Sublist.cons₂ b (List.nil_sublist _)

/-- Stability of the whole sort for a tied pair: if `a` appears before
`b` in the input and their keys are equal, `a` appears before `b` in the
output. -/
theorem pyListSort_stable (key : α → ℚ) (a b : α) (hab : key a = key b) :
    ∀ (l acc : List α),
    List.Pairwise (fun a b => key b ≤ key a) acc →
    ([a, b].Sublist acc ∨ (a ∈ acc ∧ b ∈ l) ∨ [a, b].Sublist l) →
    [a, b].Sublist (l.foldl (fun acc x =>
      insertStable (fun y z => decide (key z ≤ key y)) x acc) acc) := by
  intro l
  induction l with
  | nil =>
    intro acc _ hP
    rcases hP with h | ⟨_, hb⟩ | h
    · exact h
    · exact absurd hb (List.not_mem_nil b)
    · exact absurd (List.sublist_nil.mp h) (by simp)
  | cons x xs ih =>
    intro acc hs hP
    rw [List.foldl_cons]
    refine ih _ (insertStable_sorted key x acc hs) ?_
    rcases hP with h | ⟨ha, hb⟩ | h
    · exact Or.inl (h.trans (sublist_insertStable _ x acc))
    · rcases List.mem_cons.mp hb with hbx | hb'
      · subst hbx
        exact Or.inl (stable_insert_pair key a b hab acc hs ha)
      · exact Or.inr (Or.inl
          ⟨(sublist_insertStable _ x acc).subset ha, hb'⟩)
    · rcases List.sublist_cons_iff.mp h with h | ⟨r, hr, hrs⟩
      · exact Or.inr (Or.inr h)
      · have hax : a = x := by injection hr
        have hrb : r = [b] := by injection hr with h1 h2; exact h2.symm
        subst hax
        refine Or.inr (Or.inl ⟨?_, ?_⟩)
        · exact (insertStable_perm _ a acc).mem_iff.mpr
            (List.mem_cons_self a acc)
        · rw [hrb] at hrs
          exact hrs.subset (List.mem_cons_self b [])

/-! ## Claim C10 -/

/-- C10: the hybrid fusion output contains pairwise-distinct chunk ids —
a chunk found by both sub-rankings appears exactly once (the dict is
keyed by chunk id and a key is inserted only on first sight), for all
inputs, weights and `top_k`. -/
theorem claim_C10 (vres bres : List (RDoc × ℚ)) (top_k : Nat)
    (vw bw : ℚ) :
    ((fuseRRF vres bres top_k vw bw).map fun r => r.chunk_id).Nodup := by
  have hvals : ((rrfMap vres bres vw bw).map (·.2)).map
      (fun e => e.chunk.chunk_id) = (rrfMap vres bres vw bw).map (·.1) := by
    rw [List.map_map]
    exact List.map_congr_left fun p hp => rrfMap_coherent vres bres vw bw p hp
  have hperm : (pyListSort (fun a b => b.rrf_score ≤ a.rrf_score)
      ((rrfMap vres bres vw bw).map (·.2))).Perm
      ((rrfMap vres bres vw bw).map (·.2)) := pyListSort_perm _ _
  have hnd2 : ((pyListSort (fun a b => b.rrf_score ≤ a.rrf_score)
      ((rrfMap vres bres vw bw).map (·.2))).map
      fun e => e.chunk.chunk_id).Nodup := by
    rw [(hperm.map fun e => e.chunk.chunk_id).nodup_iff, hvals]
    exact rrfMap_keys_nodup vres bres vw bw
  have hout : (fuseRRF vres bres top_k vw bw).map (fun r => r.chunk_id) =
      ((pyListSort (fun a b => b.rrf_score ≤ a.rrf_score)
        ((rrfMap vres bres vw bw).map (·.2))).take top_k).map
        fun e => e.chunk.chunk_id := by
    unfold fuseRRF
    rw [List.map_map]
    rfl
  rw [hout]
  exact List.Nodup.sublist ((List.take_sublist _ _).map _) hnd2

/-! ## Claim C4 -/

/-- C4: confirmed.  First conjunct: every chunk id appearing in either
input ranking receives exactly one fused-dict entry whose RRF score is
the sum, over the rankings it appears in, of
`weight / (K + rank + 1)` with `K = 60` and ranks from 0, and whose raw
score for an absent ranking is 0 (never missing).  Second conjunct: every
returned (top-`top_k`) result reports exactly those values, rounded to
four decimals for display. -/
theorem claim_C4 (vres bres : List (RDoc × ℚ)) (vw bw : ℚ)
    (hv : ((vres.map fun p => p.1.chunk_id).Nodup))
    (hb : ((bres.map fun p => p.1.chunk_id).Nodup)) :
    (∀ x, ((x ∈ vres.map fun p => p.1.chunk_id) ∨
        (x ∈ bres.map fun p => p.1.chunk_id)) →
      ∃ e, fmLookup (rrfMap vres bres vw bw) x = some e ∧
        e.rrf_score = rankContrib vw vres x + rankContrib bw bres x ∧
        e.vector_score = rankScore vres x ∧
        e.bm25_score = rankScore bres x) ∧
    (∀ (top_k : Nat), ∀ r ∈ fuseRRF vres bres top_k vw bw,
      r.combined_score = round4 (rankContrib vw vres r.chunk_id +
        rankContrib bw bres r.chunk_id) ∧
      r.vector_score = round4 (rankScore vres r.chunk_id) ∧
      r.bm25_score = round4 (rankScore bres r.chunk_id)) := by
  refine ⟨fun x hx => rrfMap_lookup_eq vres bres vw bw hv hb x hx, ?_⟩
  intro top_k r hr
  rw [show fuseRRF vres bres top_k vw bw =
    ((pyListSort (fun a b => b.rrf_score ≤ a.rrf_score)
      ((rrfMap vres bres vw bw).map (·.2))).take top_k).map formatEntry
    from rfl] at hr
  obtain ⟨e, he, hre⟩ := List.mem_map.mp hr
  have he2 : e ∈ pyListSort (fun a b => b.rrf_score ≤ a.rrf_score)
      ((rrfMap vres bres vw bw).map (·.2)) := List.mem_of_mem_take he
  have he3 : e ∈ (rrfMap vres bres vw bw).map (·.2) :=
    (pyListSort_perm _ _).subset he2
  obtain ⟨q, hq, hqe⟩ := List.mem_map.mp he3
  have hcoh : q.2.chunk.chunk_id = q.1 :=
    rrfMap_coherent vres bres vw bw q hq
  have hlook : fmLookup (rrfMap vres bres vw bw) q.1 = some q.2 :=
    fmLookup_of_mem _ (rrfMap_keys_nodup vres bres vw bw) q hq
  have hxmem := rrfMap_keys_sub vres bres vw bw q.1
    (List.mem_map.mpr ⟨q, hq, rfl⟩)
  obtain ⟨e', he', heq1, heq2, heq3⟩ :=
    rrfMap_lookup_eq vres bres vw bw hv hb q.1 hxmem
  rw [hlook] at he'
  have hee : e' = q.2 := by
    injection he'.symm
  subst hee
  have hrid : r.chunk_id = q.1 := by
    rw [← hre]
    show e.chunk.chunk_id = q.1
    rw [← hqe]
    exact hcoh
  have hcomb : r.combined_score = round4 q.2.rrf_score := by
    rw [← hre, ← hqe]
    rfl
  have hvs : r.vector_score = round4 q.2.vector_score := by
    rw [← hre, ← hqe]
    rfl
  have hbs : r.bm25_score = round4 q.2.bm25_score := by
    rw [← hre, ← hqe]
    rfl
  refine ⟨?_, ?_, ?_⟩
  · rw [hcomb, hrid, heq1]
  · rw [hvs, hrid, heq2]
  · rw [hbs, hrid, heq3]

/-- C4, witness: in the spec's fusion example (vector ranking `[B,A,D]`,
lexical ranking `[A,B,C]`, both with distinct ids), chunk id 2 (`C`)
appears only in the lexical ranking yet holds an entry whose vector score
is reported as 0. -/
theorem claim_C4_witness :
    ∃ e, fmLookup (rrfMap vecRank lexRank (1/2) (1/2)) 2 = some e ∧
      e.rrf_score = rankContrib (1/2) vecRank 2 +
        rankContrib (1/2) lexRank 2 ∧
      e.vector_score = rankScore vecRank 2 ∧
      e.bm25_score = rankScore lexRank 2 :=
  (claim_C4 vecRank lexRank (1/2) (1/2) (by decide) (by decide)).1 2
    (Or.inr (by decide))

/-! ## Claim C3 -/

/-- C3, counterexample: with lexical ranking `[A,B,C]` (ids 0,1,2) and
vector ranking `[B,A,D]` (ids 1,0,3), equal weights `0.5/0.5` and
`K = 60`, the code's fused order is `[B, A, D, C]` (ids `[1,0,3,2]`): on
ties, insertion order of first appearance puts the *vector* ranking's
chunks first, because `search_hybrid` processes the vector results before
the BM25 results — so `A` does not precede `B`, contradicting the
claim. -/
theorem claim_C3_counterexample :
    ((fuseRRF vecRank lexRank 10 (1/2) (1/2)).map fun r => r.chunk_id) =
      [1, 0, 3, 2] ∧
    ¬ List.indexOf 0
        ((fuseRRF vecRank lexRank 10 (1/2) (1/2)).map fun r => r.chunk_id) <
      List.indexOf 1
        ((fuseRRF vecRank lexRank 10 (1/2) (1/2)).map fun r => r.chunk_id) := by
  have h : ((fuseRRF vecRank lexRank 10 (1/2) (1/2)).map fun r =>
      r.chunk_id) = [1, 0, 3, 2] := by
    norm_num [fuseRRF, rrfMap, procVector, procBM25, fmContains, fmAppend,
      fmModify, pyListSort, insertStable, formatEntry, vecRank, lexRank,
      docA, docB, docC, docD]
  refine ⟨h, ?_⟩
  rw [h]
  decide

/-- C3, amended: ties in fused score are broken by insertion order of
first appearance in the `rrf_scores` dict, whose insertion order
evaluates the *vector* ranking before the lexical one — in general, two
entries of the fused dict with equal RRF scores keep their dict order in
the sorted output (the sort is stable); in the example, `A` and `B` tie
exactly (both `0.5/61 + 0.5/62 = 123/7564`), `C` and `D` tie exactly
(both `0.5/63`), and the fused order is `B, A, D, C`. -/
theorem claim_C3_amended :
    (∀ (vres bres : List (RDoc × ℚ)) (vw bw : ℚ) (a b : FEntry),
      a.rrf_score = b.rrf_score →
      [a, b].Sublist ((rrfMap vres bres vw bw).map (·.2)) →
      [a, b].Sublist (pyListSort (fun x y => y.rrf_score ≤ x.rrf_score)
        ((rrfMap vres bres vw bw).map (·.2)))) ∧
    ((fuseRRF vecRank lexRank 10 (1/2) (1/2)).map fun r => r.chunk_id) =
      [1, 0, 3, 2] ∧
    (fmLookup (rrfMap vecRank lexRank (1/2) (1/2)) 0).map
        (fun e => e.rrf_score) =
      (fmLookup (rrfMap vecRank lexRank (1/2) (1/2)) 1).map
        (fun e => e.rrf_score) ∧
    (fmLookup (rrfMap vecRank lexRank (1/2) (1/2)) 2).map
        (fun e => e.rrf_score) =
      (fmLookup (rrfMap vecRank lexRank (1/2) (1/2)) 3).map
        (fun e => e.rrf_score) ∧
    (fmLookup (rrfMap vecRank lexRank (1/2) (1/2)) 0).map
        (fun e => e.rrf_score) = some (123/7564) := by
  refine ⟨?_, ?_, ?_, ?_, ?_⟩
  · intro vres bres vw bw a b hab hsub
    exact pyListSort_stable (fun e => e.rrf_score) a b hab _ _
      List.Pairwise.nil (Or.inr (Or.inr hsub))
  all_goals
    norm_num [fuseRRF, rrfMap, procVector, procBM25, fmContains, fmAppend,
      fmModify, fmLookup, List.find?, pyListSort, insertStable, formatEntry,
      vecRank, lexRank, docA, docB, docC, docD]

/-- C3, witness for the amended theorem at the spec's example: the
entries of `B` and `A` tie at `123/7564`, `B` precedes `A` in the dict
(vector ranking first), and `B` still precedes `A` in the sorted
output. -/
theorem claim_C3_witness :
    entryB.rrf_score = entryA.rrf_score ∧
    [entryB, entryA].Sublist
      ((rrfMap vecRank lexRank (1/2) (1/2)).map (·.2)) ∧
    [entryB, entryA].Sublist
      (pyListSort (fun x y => y.rrf_score ≤ x.rrf_score)
        ((rrfMap vecRank lexRank (1/2) (1/2)).map (·.2))) := by
  have h1 : entryB.rrf_score = entryA.rrf_score := by
    norm_num [entryA, entryB]
  have hmap : (rrfMap vecRank lexRank (1/2) (1/2)).map (·.2) =
      [entryB, entryA, entryD, entryC] := by
    norm_num [rrfMap, procVector, procBM25, fmContains, fmAppend, fmModify,
      vecRank, lexRank, docA, docB, docC, docD, entryA, entryB, entryC,
      entryD]
  have h2 : [entryB, entryA].Sublist
      ((rrfMap vecRank lexRank (1/2) (1/2)).map (·.2)) := by
    rw [hmap]
    exact List.Sublist.cons₂ entryB (List.Sublist.cons₂ entryA
      (List.nil_sublist _))
  exact ⟨h1, h2, claim_C3_amended.1 vecRank lexRank (1/2) (1/2) entryB
    entryA h1 h2⟩

/-! ## Claim C5 -/

/-- C5, counterexample: a hybrid search on the `Empty` state (no corpus
ever indexed in this process, no persisted store loaded) fails with
Python's `AttributeError` — `HybridRetriever.__init__` never assigns
`self.collection`, so the guard's attribute access at retriever.py line
177 raises before anything else runs.  No `IndexUnavailable` concept
exists anywhere in the retriever: what escapes is an accidental
unhandled exception, not the spec's designed precondition-violation
report. -/
theorem claim_C5_counterexample :
    search_hybrid embedConst zeroScores nnAll initState "anything" 5
      (6/10) (4/10) = .error .attributeError ∧
    (Except.error PyErr.attributeError :
      Except PyErr (List FusedResult)) ≠ .ok [] := by
  refine ⟨rfl, ?_⟩
  intro h
  exact Except.noConfusion h

/-- C5, amended: for every query, parameters and external capabilities, a
search while the index state is `Empty` raises Python's `AttributeError`
(the `self.collection` attribute is never assigned by the constructor,
so the guard `if not self.collection` cannot even evaluate), and in
particular never returns a result list: the failure is an accidental
unhandled exception, not the spec's distinct `IndexUnavailable` error —
no such error exists in the retriever. -/
theorem claim_C5_amended
    (getScores : List (List String) → List String → List ℚ)
    (embed : List String → Except EmbErr (List (List ℚ)))
    (nn : List StoredItem → List ℚ → Nat → List (StoredItem × ℚ))
    (query : String) (top_k : Nat) (vw bw : ℚ) :
    search_hybrid embed getScores nn initState query top_k vw bw =
      .error .attributeError ∧
    ∀ l : List FusedResult,
      search_hybrid embed getScores nn initState query top_k vw bw ≠
        .ok l := by
  refine ⟨rfl, ?_⟩
  intro l h
  rw [show search_hybrid embed getScores nn initState query top_k vw bw =
    .error .attributeError from rfl] at h
  exact Except.noConfusion h

/-! ## Claim C1 -/

/-- C1, amended: a failed forced re-index does *not* leave the previous
index intact.  `index_chunks` with `force_reindex = true` deletes the
existing collection and creates a fresh empty one *before* calling the
embedder, and overwrites the in-memory corpus first of all; when the
embedder fails, the error escapes with the state already holding the new
empty collection and the new chunk list (and the stale BM25 object).  A
vector search performed afterwards (with a healthy embedder and any
nearest-neighbor capability that returns nothing on an empty collection)
returns `.ok []` — not the prior index's results. -/
theorem claim_C1_amended
    (embed : List String → Except EmbErr (List (List ℚ)))
    (st : RetrieverState) (chunks : List Chunk) (e : EmbErr)
    (hfail : get_embeddings embed (chunks.map (·.text)) = .error e) :
    index_chunks embed st chunks true =
      ({ st with chunks := chunks, collection := some [] }, some e) ∧
    ∀ (embed2 : List String → Except EmbErr (List (List ℚ)))
      (nn : List StoredItem → List ℚ → Nat → List (StoredItem × ℚ))
      (q : String) (top_k : Nat),
      (∀ qe n, nn [] qe n = []) →
      (∃ es, get_embeddings embed2 [q] = .ok es) →
      search_vector embed2 nn (index_chunks embed st chunks true).1 q
        top_k = .ok [] := by
  have h1 : index_chunks embed st chunks true =
      ({ st with chunks := chunks, collection := some [] }, some e) := by
    unfold index_chunks
    simp only [Bool.not_true, Bool.and_false, Bool.false_eq_true,
      if_false, hfail]
  refine ⟨h1, ?_⟩
  intro embed2 nn q top_k hnn hok
  obtain ⟨es, hes⟩ := hok
  rw [h1]
  show search_vector embed2 nn
    { st with chunks := chunks, collection := some [] } q top_k = .ok []
  unfold search_vector
  rw [hes]
  cases es with
  | nil => rfl
  | cons qe rest =>
    show Except.ok ((nn [] qe top_k).map _) = .ok []
    rw [hnn qe top_k]
    rfl

/-- C1, counterexample: starting from a committed one-chunk index
(`builtState`), a forced re-index with a failing embedder raises the
embedding-service error, and afterwards the same vector search that
previously returned the indexed chunk returns the empty list: the
previously committed index is *not* intact and the search results are
not unchanged. -/
theorem claim_C1_counterexample :
    (index_chunks embedDown builtState [chunkGamma] true).2 =
      some EmbErr.rateLimit ∧
    (∃ sc : ℚ, search_vector embedConst nnAll builtState "query" 10 =
      .ok [(toRDoc chunkAlpha, sc)] ∧ sc = 1) ∧
    search_vector embedConst nnAll
      (index_chunks embedDown builtState [chunkGamma] true).1 "query" 10 =
      .ok [] ∧
    (Except.ok ([] : List (RDoc × ℚ)) : Except PyErr (List (RDoc × ℚ))) ≠
      .ok [(toRDoc chunkAlpha, 1)] := by
  refine ⟨rfl, ⟨1 - 0, rfl, by norm_num⟩, rfl, ?_⟩
  intro h
  have h2 := Except.ok.inj h
  exact List.noConfusion h2

/-- C1, witness for the amended theorem: the concrete failing forced
re-index from `builtState` produces exactly the characterized state and
error, and the subsequent vector search returns the empty list. -/
theorem claim_C1_witness :
    (index_chunks embedDown builtState [chunkGamma] true).2 =
      some EmbErr.rateLimit ∧
    search_vector embedConst nnAll
      (index_chunks embedDown builtState [chunkGamma] true).1 "q" 5 =
      .ok [] := by
  have h := claim_C1_amended embedDown builtState [chunkGamma]
    EmbErr.rateLimit rfl
  refine ⟨by rw [h.1], ?_⟩
  exact h.2 embedConst nnAll "q" 5 (fun qe n => by simp [nnAll]) ⟨[[1]], rfl⟩

/-! ## Claim C6 -/

/-- C6, counterexample: when a persisted collection with the configured
name exists but is *empty*, re-indexing with `force_reindex = false` is
still a no-op on the store, but the in-memory corpus keeps the passed
argument (assigned at the top of `index_chunks`) and the lexical index is
not rebuilt — the corpus is *not* reconstructed from the persisted
store. -/
theorem claim_C6_counterexample :
    (index_chunks embedConst emptyStoreState [chunkGamma] false).1.chunks =
      [chunkGamma] ∧
    (index_chunks embedConst emptyStoreState [chunkGamma] false).1.bm25 =
      none ∧
    emptyStoreState.collection = some [] ∧
    [chunkGamma] ≠ rebuiltChunks [] := by
  refine ⟨rfl, rfl, rfl, ?_⟩
  intro h
  exact List.noConfusion h

/-- C6, amended: with an existing *non-empty* persisted collection,
`index_chunks` with `force_reindex = false` leaves the persisted store
untouched, reports no error, and reconstructs the in-memory corpus and
BM25 structures from the stored items (stably sorted by chunk id) — the
result is the same whatever chunk list is passed as argument. -/
theorem claim_C6_amended
    (embed : List String → Except EmbErr (List (List ℚ)))
    (st : RetrieverState) (items : List StoredItem)
    (hcol : st.collection = some items) (hne : items ≠ []) :
    ∀ chunks, index_chunks embed st chunks false =
      ({ st with
          chunks := rebuiltChunks items
          bm25 := some (rebuiltCorpus items)
          tokenized_corpus := rebuiltCorpus items }, none) := by
  intro chunks
  obtain ⟨col, ch0, bm0, tok0⟩ := st
  have hc : col = some items := hcol
  subst hc
  have hni : items.isEmpty = false := by
    cases items
    · exact absurd rfl hne
    · rfl
  unfold index_chunks rebuild_bm25_from_collection build_bm25_index
  simp [hni, rebuiltChunks, rebuiltCorpus]

/-- C6, witness: from the concrete stale state holding one stored chunk,
a `force=false` re-index with an arbitrary passed argument rebuilds the
corpus and BM25 index from the store and leaves the store unchanged. -/
theorem claim_C6_witness :
    index_chunks embedConst storeSt [chunkGamma] false =
      ({ storeSt with
          chunks := rebuiltChunks [⟨chunkAlpha, [1]⟩]
          bm25 := some (rebuiltCorpus [⟨chunkAlpha, [1]⟩])
          tokenized_corpus := rebuiltCorpus [⟨chunkAlpha, [1]⟩] }, none) :=
  claim_C6_amended embedConst storeSt [⟨chunkAlpha, [1]⟩] rfl
    (List.cons_ne_nil _ _) [chunkGamma]

/-! ## Chunk-id density and the upload citation logic -/

/-- Two consecutive ranges of ids concatenate to one range. -/
theorem rangeConsecAppend (s a b : Nat) :
    List.range' s a ++ List.range' (s + a) b = List.range' s (a + b) := by
  have h := List.range'_append s a b 1
  rw [Nat.one_mul] at h
  rw [Nat.add_comm a b]
  exact h

theorem emitChunks_ids : ∀ (ts : List String) (pn cid : Nat),
    (emitChunks pn cid ts).map (·.chunk_id) = List.range' cid ts.length := by
  intro ts
  induction ts with
  | nil => intro pn cid; rfl
  | cons t ts ih =>
    intro pn cid
    rw [emitChunks, List.map_cons, List.length_cons, List.range'_succ,
      ih pn (cid + 1)]

theorem emitChunks_length : ∀ (ts : List String) (pn cid : Nat),
    (emitChunks pn cid ts).length = ts.length := by
  intro ts
  induction ts with
  | nil => intro pn cid; rfl
  | cons t ts ih =>
    intro pn cid
    rw [emitChunks, List.length_cons, List.length_cons, ih pn (cid + 1)]

/-- The chunk ids assigned by `chunk_pages`'s loop are consecutive,
starting at the running counter. -/
theorem chunkPagesGo_ids (cs co mn : Nat) : ∀ (pages : List Page)
    (cid : Nat), (chunkPagesGo cs co mn pages cid).map (·.chunk_id) =
      List.range' cid (chunkPagesGo cs co mn pages cid).length := by
  intro pages
  induction pages with
  | nil => intro cid; rfl
  | cons p rest ih =>
    intro cid
    rw [chunkPagesGo]
    by_cases hskip : p.text = "" ∨ (pyStrip p.text).length < mn
    · rw [if_pos hskip]
      exact ih cid
    · rw [if_neg hskip, List.map_append, List.length_append,
        emitChunks_ids, ih, emitChunks_length]
      exact rangeConsecAppend cid _ _

/-- Reindexing chunk ids to consecutive positions is the identity when
the ids already are consecutive from the same start. -/
theorem reindexIds_eq_self : ∀ (l : List Chunk) (i : Nat),
    l.map (·.chunk_id) = List.range' i l.length → reindexIds i l = l := by
  intro l
  induction l with
  | nil => intro i _; rfl
  | cons c cs ih =>
    intro i h
    obtain ⟨cid, pn, tx, tc, cit⟩ := c
    rw [List.map_cons, List.length_cons, List.range'_succ] at h
    injection h with h1 h2
    have h1' : cid = i := h1
    subst h1'
    rw [show reindexIds cid ((⟨cid, pn, tx, tc, cit⟩ : Chunk) :: cs) =
      (⟨cid, pn, tx, tc, cit⟩ : Chunk) :: reindexIds (cid + 1) cs from rfl,
      ih (cid + 1) h2]

/-- Reindexing only rewrites `chunk_id`: citation and page number of
every output chunk come from an input chunk. -/
theorem mem_reindexIds : ∀ (l : List Chunk) (i : Nat) (c : Chunk),
    c ∈ reindexIds i l → ∃ c' ∈ l, c.citation = c'.citation ∧
      c.page_num = c'.page_num := by
  intro l
  induction l with
  | nil => intro i c hc; exact absurd hc (List.not_mem_nil c)
  | cons d ds ih =>
    intro i c hc
    rw [show reindexIds i (d :: ds) =
      { d with chunk_id := i } :: reindexIds (i + 1) ds from rfl] at hc
    rcases List.mem_cons.mp hc with hc | hc
    · subst hc
      exact ⟨d, by simp, rfl, rfl⟩
    · obtain ⟨c', hc', h1, h2⟩ := ih (i + 1) c hc
      exact ⟨c', by simp [hc'], h1, h2⟩

/-- A single uploaded file's chunks pass through the upload handler
unchanged: the citations keep the single-document format and the global
reindexing rewrites every id to its existing value. -/
theorem uploadChunks_single (fn : String) (pages : List Page) :
    uploadChunks [(fn, pages)] = create_chunks pages 500 100 := by
  have h1 : uploadChunks [(fn, pages)] =
      reindexIds 0 (create_chunks pages 500 100) := by
    unfold uploadChunks uploadFileChunks
    simp
  rw [h1]
  exact reindexIds_eq_self _ 0 (chunkPagesGo_ids 500 100 50 pages 0)

/-- `get?` on an id range. -/
theorem range'_get?_eq : ∀ (n s j : Nat), j < n →
    (List.range' s n).get? j = some (s + j) := by
  intro n
  induction n with
  | zero => intro s j hj; omega
  | succ n ih =>
    intro s j hj
    rw [List.range'_succ]
    cases j with
    | zero =>
      rw [Nat.add_zero]
      rfl
    | succ j =>
      show (List.range' (s + 1) n).get? j = some (s + (j + 1))
      rw [ih (s + 1) j (by omega)]
      have h : s + 1 + j = s + (j + 1) := by omega
      rw [h]

/-- The global reindexing writes `i + k` as the id of the element at
offset `k` and changes nothing else. -/
theorem reindexIds_get? : ∀ (l : List Chunk) (i k : Nat),
    (reindexIds i l).get? k =
      (l.get? k).map fun c => { c with chunk_id := i + k } := by
  intro l
  induction l with
  | nil => intro i k; rfl
  | cons c cs ih =>
    intro i k
    rw [show reindexIds i (c :: cs) =
      { c with chunk_id := i } :: reindexIds (i + 1) cs from rfl]
    cases k with
    | zero => rfl
    | succ k =>
      show (reindexIds (i + 1) cs).get? k =
        (cs.get? k).map fun c => { c with chunk_id := i + (k + 1) }
      rw [ih (i + 1) k]
      have h : i + 1 + k = i + (k + 1) := by omega
      rw [h]

/-- Every position of a flattened mapped list falls inside the image of
exactly one element, at an offset past the flattened earlier images. -/
theorem map_flatten_get?_split (g : String × List Page → List Chunk) :
    ∀ (fs : List (String × List Page)) (k : Nat) (c : Chunk),
      ((fs.map g).flatten).get? k = some c →
      ∃ pre x post j, fs = pre ++ x :: post ∧
        k = ((pre.map g).flatten).length + j ∧ (g x).get? j = some c := by
  intro fs
  induction fs with
  | nil =>
    intro k c hc
    simp at hc
  | cons x rest ih =>
    intro k c hc
    rw [List.map_cons, List.flatten_cons] at hc
    by_cases hx : k < (g x).length
    · rw [List.get?_append hx] at hc
      exact ⟨[], x, rest, k, rfl, by simp, hc⟩
    · push_neg at hx
      rw [List.get?_append_right hx] at hc
      obtain ⟨pre, y, post, j, hfs, hk, hy⟩ := ih (k - (g x).length) c hc
      refine ⟨x :: pre, y, post, j, by rw [hfs, List.cons_append], ?_, hy⟩
      have hlen : (((x :: pre).map g).flatten).length =
          (g x).length + ((pre.map g).flatten).length := by
        rw [List.map_cons, List.flatten_cons, List.length_append]
      omega

/-- The chunker's ids are dense from 0: the `j`-th chunk of a single
document has `chunk_id = j`. -/
theorem create_chunks_get?_id (pages : List Page) (j : Nat) (c : Chunk)
    (hc : (create_chunks pages 500 100).get? j = some c) :
    c.chunk_id = j := by
  have hj : j < (create_chunks pages 500 100).length :=
    (List.get?_eq_some.mp hc).1
  have hm : ((create_chunks pages 500 100).map (·.chunk_id)).get? j =
      (List.range' 0 (create_chunks pages 500 100).length).get? j := by
    rw [show create_chunks pages 500 100 =
      chunkPagesGo 500 100 50 pages 0 from rfl, chunkPagesGo_ids]
  rw [List.get?_map, hc, range'_get?_eq _ _ _ hj] at hm
  injection hm with h
  have h2 : c.chunk_id = 0 + j := h
  rw [h2, Nat.zero_add]

/-- In a multi-file upload, the `j`-th chunk of one file carries the
per-file id `j`, and its citation is the multi-file citation built from
that file's own name, the chunk's own page and the per-file id `j`. -/
theorem uploadFileChunks_get?_multi (n : Nat) (hn : 1 < n)
    (file : String × List Page) (j : Nat) (c : Chunk)
    (hc : (uploadFileChunks n file).get? j = some c) :
    c.chunk_id = j ∧
    c.citation = mkMultiCitation file.1 c.page_num j := by
  simp only [uploadFileChunks] at hc
  rw [if_pos hn, List.get?_map] at hc
  cases h0 : (create_chunks file.2 500 100).get? j with
  | none =>
    rw [h0] at hc
    exact absurd hc (by simp)
  | some c0 =>
    rw [h0] at hc
    have hid : c0.chunk_id = j := create_chunks_get?_id file.2 j c0 h0
    have hc2 : c = { c0 with
        citation := mkMultiCitation file.1 c0.page_num c0.chunk_id } := by
      injection hc with h
      exact h.symm
    subst hc2
    refine ⟨hid, ?_⟩
    show mkMultiCitation file.1 c0.page_num c0.chunk_id =
      mkMultiCitation file.1 c0.page_num j
    rw [hid]

/-! ## Claim C9 -/

/-- C9, counterexample: uploading the same one-chunk document as two
files `a.pdf` and `b.pdf` produces citations written *before* the global
id reindexing: the second document's chunk receives the final
`chunk_id = 1` but its citation embeds its per-file id `c0` — not the
final id, which would read `[b.pdf:p1:c1]`. -/
theorem claim_C9_counterexample :
    ((uploadChunks [("a.pdf", [demoPage]), ("b.pdf", [demoPage])]).map
      fun c => (c.chunk_id, c.citation)) =
      [(0, "[a.pdf:p1:c0]"), (1, "[b.pdf:p1:c0]")] ∧
    "[b.pdf:p1:c0]" ≠ mkMultiCitation "b.pdf" 1 1 := by
  constructor
  · decide
  · decide

/-- C9, amended: for a single uploaded document every chunk's citation is
bit-exactly `[p<page>:c<id>]` with its own final page number and chunk id
(per-file ids are already dense, so the global reindexing preserves
them).  For multiple merged documents, the chunk at every global position
`k` of the upload output has final `chunk_id = k` and is exactly the
`j`-th chunk of one source file — with `k` equal to the number of chunks
contributed by the files before it plus `j`, and only its `chunk_id`
rewritten by the global reindexing — and its citation is bit-exactly
`[<that file's own name, truncated to 20 characters with trailing
ellipsis>:p<its own page>:c<j>]` where `j` is its *per-file* id assigned
before merging; whenever the files before it contributed at least one
chunk (in particular for every document after the first when no earlier
document is chunk-free), `j` differs from the final globally-unique
`chunk_id`. -/
theorem claim_C9_amended :
    (∀ (fn : String) (pages : List Page) (c : Chunk),
      c ∈ uploadChunks [(fn, pages)] →
      c.citation = mkCitation c.page_num c.chunk_id) ∧
    (∀ (files : List (String × List Page)), 2 ≤ files.length →
      ∀ (k : Nat) (c : Chunk), (uploadChunks files).get? k = some c →
      c.chunk_id = k ∧
      ∃ pre file post j, files = pre ++ file :: post ∧
        k = ((pre.map (uploadFileChunks files.length)).flatten).length + j ∧
        ∃ c', (uploadFileChunks files.length file).get? j = some c' ∧
          c'.chunk_id = j ∧
          c = { c' with chunk_id := k } ∧
          c.citation = mkMultiCitation file.1 c.page_num j ∧
          (0 < ((pre.map (uploadFileChunks files.length)).flatten).length →
            j ≠ c.chunk_id)) := by
  constructor
  · intro fn pages c hc
    rw [uploadChunks_single] at hc
    obtain ⟨p, _, t, _, _, _, _, hpn, hcit⟩ :=
      chunkPagesGo_src 500 100 50 pages 0 c hc
    exact hcit
  · intro files h2 k c hc
    unfold uploadChunks at hc
    rw [reindexIds_get?] at hc
    cases h0 : ((files.map (uploadFileChunks files.length)).flatten).get? k
        with
    | none =>
      rw [h0] at hc
      exact absurd hc (by simp)
    | some c1 =>
      rw [h0] at hc
      have hcc : c = { c1 with chunk_id := 0 + k } := by
        injection hc with h
        exact h.symm
      rw [Nat.zero_add] at hcc
      obtain ⟨pre, file, post, j, hfs, hk, hj⟩ :=
        map_flatten_get?_split (uploadFileChunks files.length) files k c1 h0
      obtain ⟨hid, hcit⟩ := uploadFileChunks_get?_multi files.length
        (by omega) file j c1 hj
      subst hcc
      refine ⟨rfl, pre, file, post, j, hfs, hk, c1, hj, hid, rfl, hcit, ?_⟩
      intro hoff
      show j ≠ k
      omega

/-- C9, witness: the single-file half at the concrete one-chunk upload,
and the multi-file half at global position 1 of the concrete two-file
upload `upFiles` — the chunk there is the second file's chunk at per-file
position 0, its final id is 1, and its citation embeds the per-file id
0, which differs from the final id. -/
theorem claim_C9_witness :
    (∃ c, c ∈ uploadChunks [("a.pdf", [demoPage])] ∧
      c.citation = mkCitation c.page_num c.chunk_id) ∧
    (∃ c, (uploadChunks upFiles).get? 1 = some c ∧
      c.chunk_id = 1 ∧
      ∃ pre file post j, upFiles = pre ++ file :: post ∧
        1 = ((pre.map (uploadFileChunks upFiles.length)).flatten).length +
          j ∧
        ∃ c', (uploadFileChunks upFiles.length file).get? j = some c' ∧
          c'.chunk_id = j ∧
          c = { c' with chunk_id := 1 } ∧
          c.citation = mkMultiCitation file.1 c.page_num j ∧
          (0 < ((pre.map (uploadFileChunks upFiles.length)).flatten).length
            → j ≠ c.chunk_id)) := by
  constructor
  · have hne : uploadChunks [("a.pdf", [demoPage])] ≠ [] := by decide
    obtain ⟨c, cs, hl⟩ := List.exists_cons_of_ne_nil hne
    have hc : c ∈ uploadChunks [("a.pdf", [demoPage])] := by rw [hl]; simp
    exact ⟨c, hc, claim_C9_amended.1 "a.pdf" [demoPage] c hc⟩
  · have hs : ((uploadChunks upFiles).get? 1).isSome = true := by decide
    obtain ⟨c, hc⟩ := Option.isSome_iff_exists.mp hs
    exact ⟨c, hc, claim_C9_amended.2 upFiles (by decide) 1 c hc⟩

end RagCore
